import Mathlib

set_option maxHeartbeats 1000000
set_option maxRecDepth 8000

/-
Shallow embedding of tensorflow/contrib/tensor_forest/kernels/v4/grow_stats.cc.

Modelling conventions:
- C++ float values are modelled as rationals; arithmetic is exact.
- The real-valued library functions sqrt and log (used only by the two
  Hoeffding checks) are modelled with Real.sqrt and Real.log.
- LOG(FATAL) in the constructor is modelled as Except.error.
- std::map is modelled as an association list sorted by key; proto map
  fields are modelled as association lists in emission order.
- The candidate split definitions (decision_trees::BinaryNode) are opaque
  to this file and modelled as natural-number tokens; the per-split routing
  evaluators are modelled as a Boolean routing function supplied with each
  example (true = LEFT_INDEX).
- The running Gini cache (use_running_stats_method) is not modelled;
  MaybeCachedGiniScore is embedded as its uncached branch, the recomputing
  GiniScore.  The randomness of the bootstrap finish check is modelled as
  an external Boolean input.
-/

namespace TensorForest

/-- Modelled from the spec: WeightedSmoothedGini lives in stat_utils.cc,
which is not among the sources.  Spec 4.3: for counts summing to S with sum
of squares Q, the score is S * (1 - Q/S^2) when S > 0, else 0 (a side with
zero mass contributes zero score, not undefined). -/
def WeightedSmoothedGini (sum square : ℚ) : ℚ :=
  if 0 < sum then sum * (1 - square / (sum * sum)) else 0

/-- Sum of f over 0, 1, ..., n-1, modelling a C++ accumulation loop. -/
def sumOver (n : ℕ) (f : ℕ → ℚ) : ℚ :=
  ((List.range n).map f).sum

/-- In-place update `v[i] += w` on a dense vector (C++ array indexing). -/
def addAt : List ℚ → ℕ → ℚ → List ℚ
  | [], _, _ => []
  | x :: l, 0, w => (x + w) :: l
  | x :: l, n + 1, w => x :: addAt l n w

/-- Lookup in an association list, modelling std::map::find. -/
def mapFind : List (ℕ × ℚ) → ℕ → Option ℚ
  | [], _ => none
  | p :: l, k => if p.1 = k then some p.2 else mapFind l k

/-- Modelling `m[k] = v` on a std::map kept sorted by key: insert or assign. -/
def mapAssign : List (ℕ × ℚ) → ℕ → ℚ → List (ℕ × ℚ)
  | [], k, v => [(k, v)]
  | p :: l, k, v =>
    if k < p.1 then (k, v) :: p :: l
    else if k = p.1 then (k, v) :: l
    else p :: mapAssign l k v

/-- Modelling `m[k] += w` on a std::map (operator[] default-constructs 0). -/
def mapAdd (m : List (ℕ × ℚ)) (k : ℕ) (w : ℚ) : List (ℕ × ℚ) :=
  mapAssign m k ((mapFind m k).getD 0 + w)

/-- Rebuild a std::map by assigning every entry of a proto map in order,
modelling the deserialization loops of ExtractFromProto. -/
def mapOfEntries (entries : List (ℕ × ℚ)) : List (ℕ × ℚ) :=
  entries.foldl (fun m e => mapAssign m e.1 e.2) []

/-- Minimum of a list of rationals, as an option. -/
def minQ : List ℚ → Option ℚ
  | [] => none
  | a :: l =>
    some (match minQ l with
          | none => a
          | some m => min a m)

/-- Modelled from the spec: GetTwoBest lives in tree_utils.h, which is not
among the sources.  Spec 4.3: find the two lowest-scoring candidates (best,
second-best); the second-best is the lowest score among the remaining
candidates after removing one occurrence of the best. -/
def twoBest (l : List ℚ) : Option (ℚ × ℚ) :=
  match minQ l with
  | none => none
  | some b =>
    match minQ (l.erase b) with
    | none => none
    | some s2 => some (b, s2)

/-- Elements of a list whose position (counting from k) is not listed in R;
this is what a batch of descending index-based deletions leaves behind. -/
def keepAux {α : Type} (R : List ℕ) : ℕ → List α → List α
  | _, [] => []
  | k, a :: l => if k ∈ R then keepAux R (k + 1) l else a :: keepAux R (k + 1) l

/-- Sequential deletion `for i in R: l.erase(l.begin() + i)`, as used by the
pruning removal loops (R is traversed highest index first). -/
def removeIdxs {α : Type} (l : List α) (R : List ℕ) : List α :=
  R.foldl (fun acc i => acc.eraseIdx i) l

/-- Comparison used by the pruning min-heap: `std::pair<float, int>` with
its lexicographic operator< (the heap is a min-heap via std::greater). -/
def pairLe (a b : ℚ × ℕ) : Prop :=
  a.1 < b.1 ∨ (a.1 = b.1 ∧ a.2 ≤ b.2)

instance : DecidableRel pairLe := fun a b => by
  unfold pairLe; infer_instance

instance : IsTotal (ℚ × ℕ) pairLe := by
  constructor
  intro a b
  rcases lt_trichotomy a.1 b.1 with h | h | h
  · exact Or.inl (Or.inl h)
  · rcases le_total a.2 b.2 with h2 | h2
    · exact Or.inl (Or.inr ⟨h, h2⟩)
    · exact Or.inr (Or.inr ⟨h.symm, h2⟩)
  · exact Or.inr (Or.inl h)

instance : IsTrans (ℚ × ℕ) pairLe := by
  constructor
  intro a b c hab hbc
  rcases hab with h1 | ⟨e1, l1⟩
  · rcases hbc with h2 | ⟨e2, _⟩
    · exact Or.inl (h1.trans h2)
    · exact Or.inl (e2 ▸ h1)
  · rcases hbc with h2 | ⟨e2, l2⟩
    · exact Or.inl (e1 ▸ h2)
    · exact Or.inr ⟨e1.trans e2, l1.trans l2⟩

/-- The state of the bounded min-heap selection in CheckPrune: `worst` is
the priority queue (kept sorted ascending, head = top = least pair) and
`indices` is the mirroring std::set (kept sorted ascending). -/
structure Sel where
  worst : List (ℚ × ℕ)
  indices : List ℕ
  deriving DecidableEq

/-- One iteration of the CheckPrune heap loop on candidate x = (score, i):
push while the heap holds fewer than k pairs, else evict the top when it
compares below the new score. -/
def selStep (k : ℕ) (st : Sel) (x : ℚ × ℕ) : Sel :=
  if st.worst.length < k then
    ⟨List.orderedInsert pairLe x st.worst, List.orderedInsert (· ≤ ·) x.2 st.indices⟩
  else
    match st.worst with
    | [] => st
    | t :: rest =>
      if t.1 < x.1 then
        ⟨List.orderedInsert pairLe x rest,
         List.orderedInsert (· ≤ ·) x.2 (st.indices.erase t.2)⟩
      else st

/-- The CheckPrune heap loop over candidates 0..n-1 with their scores. -/
def pruneSelect (k : ℕ) (score : ℕ → ℚ) (n : ℕ) : Sel :=
  (List.range n).foldl (fun st i => selStep k st (score i, i)) ⟨[], []⟩

/-- True when the candidate at hand scores strictly below the current
best-split accumulator (min_score starts at FLT_MAX, so an empty
accumulator is always beaten). -/
def beats : Option (ℕ × ℚ × ℚ × ℚ) → ℚ → Prop
  | none, _ => True
  | some a, sc => sc < a.2.1

instance : ∀ (acc : Option (ℕ × ℚ × ℚ × ℚ)) (sc : ℚ), Decidable (beats acc sc)
  | none, _ => Decidable.isTrue trivial
  | some a, sc => inferInstanceAs (Decidable (sc < a.2.1))

/-- One iteration of the BestSplit loop: f i = (score, left weight, right
weight) of candidate i; a candidate is taken when both weights are strictly
positive and its score beats the running minimum. -/
def selBestStep (f : ℕ → ℚ × ℚ × ℚ) (acc : Option (ℕ × ℚ × ℚ × ℚ)) (i : ℕ) :
    Option (ℕ × ℚ × ℚ × ℚ) :=
  if 0 < (f i).2.1 ∧ 0 < (f i).2.2 ∧ beats acc (f i).1 then some (i, f i) else acc

/-- The BestSplit scan over candidates 0..n-1. -/
def selectBest (f : ℕ → ℚ × ℚ × ℚ) (n : ℕ) : Option (ℕ × ℚ × ℚ × ℚ) :=
  (List.range n).foldl (selBestStep f) none

/-- SPLIT_FINISH_BASIC / SPLIT_FINISH_DOMINATE_HOEFFDING /
SPLIT_FINISH_DOMINATE_BOOTSTRAP. -/
inductive FinishStrategy
  | basic
  | hoeffding
  | bootstrap
  deriving DecidableEq

/-- SPLIT_PRUNE_NONE / _HALF / _QUARTER / _10_PERCENT / _HOEFFDING. -/
inductive PruneStrategy
  | noPrune
  | half
  | quarter
  | tenPercent
  | hoeffdingPrune
  deriving DecidableEq

/-- The fields of TensorForestParams consumed by the constructor, with
depth-dependent parameters already resolved (ResolveParam is external
plumbing).  The has-flags model proto field presence. -/
structure TFParams where
  finishType : FinishStrategy
  finishCheckEverySteps : ℚ
  hasDominateFraction : Bool
  dominateFraction : ℚ
  hasMinSplitSamples : Bool
  minSplitSamples : ℚ
  pruningType : PruneStrategy
  pruneEverySamples : ℚ
  splitAfterSamples : ℚ
  numOutputs : ℕ
  deriving DecidableEq

/-- Configuration state a ClassificationStats object carries after its
constructor ran (fields left untouched by the constructor are 0, standing
for the uninitialized members of the C++ object; no claim depends on
them).  The cached half-log of the Hoeffding pruning strategy is
recomputed at use sites instead of being stored, to keep this structure
rational-valued. -/
structure ClassifConfig where
  splitAfterSamples : ℚ
  numOutputs : ℕ
  minSplitSamples : ℚ
  finishCheckEvery : ℚ
  finishType : FinishStrategy
  pruningType : PruneStrategy
  pruneCheckEvery : ℚ
  pruneFraction : ℚ
  dominateFraction : ℚ
  deriving DecidableEq

/-- The two LOG(FATAL) messages of the ClassificationStats constructor. -/
inductive CfgError
  | missingEarlyFinishParams
  | invalidDominateFraction
  deriving DecidableEq

/-- Constructor result: configuration plus the initial epoch counters. -/
structure ClassifInit where
  cfg : ClassifConfig
  finishSampleEpoch : ℚ
  pruneSampleEpoch : ℚ
  deriving DecidableEq

/-- The prune_fraction_ value assigned by the constructor switch. -/
def pruneFractionOf : PruneStrategy → ℚ
  | .half => 1 / 2
  | .quarter => 1 / 4
  | .tenPercent => 1 / 10
  | _ => 0

/-- Configuration before the constructor branches run. -/
def baseCfg (p : TFParams) : ClassifConfig :=
  { splitAfterSamples := p.splitAfterSamples
    numOutputs := p.numOutputs
    minSplitSamples := 0
    finishCheckEvery := 0
    finishType := p.finishType
    pruningType := p.pruningType
    pruneCheckEvery := 0
    pruneFraction := 0
    dominateFraction := 0 }

/-- The pruning-parameter section of the constructor (runs only when the
pruning type is not SPLIT_PRUNE_NONE); note that for SPLIT_PRUNE_HOEFFDING
it reads the dominate fraction without any presence or range validation. -/
def applyPruneParams (p : TFParams) (cfg : ClassifConfig) : ClassifConfig :=
  if p.pruningType = .noPrune then cfg
  else
    { cfg with
      pruneCheckEvery := p.pruneEverySamples
      pruneFraction := pruneFractionOf p.pruningType
      dominateFraction :=
        if p.pruningType = .hoeffdingPrune then p.dominateFraction
        else cfg.dominateFraction }

/-- Assemble the constructor result after the early-finish section. -/
def finishCtor (p : TFParams) (cfg : ClassifConfig) (finishEpoch : ℚ) : ClassifInit :=
  { cfg := applyPruneParams p cfg
    finishSampleEpoch := finishEpoch
    pruneSampleEpoch := if p.pruningType = .noPrune then 0 else 1 }

/-- The ClassificationStats constructor (grow_stats.cc lines 55-113);
LOG(FATAL) is modelled as Except.error. -/
def mkClassificationStats (p : TFParams) : Except CfgError ClassifInit :=
  if p.finishType = .basic then
    Except.ok (finishCtor p { baseCfg p with minSplitSamples := p.splitAfterSamples } 0)
  else if ¬ p.hasDominateFraction ∨ ¬ p.hasMinSplitSamples then
    Except.error CfgError.missingEarlyFinishParams
  else if p.dominateFraction ≤ 0 ∨ 1 < p.dominateFraction then
    Except.error CfgError.invalidDominateFraction
  else
    Except.ok (finishCtor p
      { baseCfg p with
        minSplitSamples := p.minSplitSamples
        finishCheckEvery := p.finishCheckEverySteps
        dominateFraction := p.dominateFraction }
      (p.minSplitSamples / p.finishCheckEverySteps))

/-- True when the constructor hits LOG(FATAL). -/
def isFatalCfg (p : TFParams) : Bool :=
  match mkClassificationStats p with
  | .error _ => true
  | .ok _ => false

/-- The doubling loop of NumBootstrapSamples (grow_stats.cc lines 282-290),
written with explicit fuel because the loop does not terminate on every
input: state p starts at 1 - dominate_fraction, samples starts at 1, and
each iteration doubles p and increments samples until p >= 1. -/
def numBootstrapLoop : ℕ → ℚ → ℕ → Option ℕ
  | 0, _, _ => none
  | fuel + 1, p, samples =>
    if p < 1 then numBootstrapLoop fuel (p * 2) (samples + 1) else some samples

/-- NumBootstrapSamples under a given amount of fuel. -/
def numBootstrapSamplesFuel (fuel : ℕ) (dominateFraction : ℚ) : Option ℕ :=
  numBootstrapLoop fuel (1 - dominateFraction) 1

/-- The doubling loop terminates on this dominate fraction. -/
def numBootstrapTerminates (dominateFraction : ℚ) : Prop :=
  ∃ fuel n, numBootstrapSamplesFuel fuel dominateFraction = some n

/-- Dense classification accumulator state (DenseClassificationGrowStats):
leaf totals and per-candidate left counts are arrays indexed by class. -/
structure DenseState where
  cfg : ClassifConfig
  weightSum : ℚ
  totals : List ℚ
  splits : List ℕ
  leftCounts : List (List ℚ)
  finishEarly : Bool
  finishSampleEpoch : ℚ
  pruneSampleEpoch : ℚ
  deriving DecidableEq

/-- left_count(split, class_idx) for the dense variant. -/
def leftCountD (s : DenseState) (split j : ℕ) : ℚ :=
  (s.leftCounts.getD split []).getD j 0

/-- right_count(split, class_idx) = total - left for the dense variant. -/
def rightCountD (s : DenseState) (split j : ℕ) : ℚ :=
  s.totals.getD j 0 - leftCountD s split j

/-- num_splits(). -/
def numSplitsD (s : DenseState) : ℕ :=
  s.splits.length

/-- num_outputs_seen(): the count of classes with a nonzero leaf total
(kept as a counter in the C++ object; derived here). -/
def numOutputsSeenD (s : DenseState) : ℕ :=
  (s.totals.filter (fun c => decide (c ≠ 0))).length

/-- GiniScore of the dense variant (grow_stats.cc lines 384-403): returns
(total score, left sum, right sum); this is also the uncached branch of
MaybeCachedGiniScore. -/
def giniScoreD (s : DenseState) (split : ℕ) : ℚ × ℚ × ℚ :=
  let leftSum := sumOver s.cfg.numOutputs (fun j => leftCountD s split j)
  let leftSquare := sumOver s.cfg.numOutputs (fun j => leftCountD s split j * leftCountD s split j)
  let rightSum := sumOver s.cfg.numOutputs (fun j => rightCountD s split j)
  let rightSquare := sumOver s.cfg.numOutputs (fun j => rightCountD s split j * rightCountD s split j)
  (WeightedSmoothedGini leftSum leftSquare + WeightedSmoothedGini rightSum rightSquare,
   leftSum, rightSum)

/-- Split score of candidate i (dense). -/
def scoreD (s : DenseState) (i : ℕ) : ℚ :=
  (giniScoreD s i).1

/-- Left weight of candidate i (dense). -/
def leftSumD (s : DenseState) (i : ℕ) : ℚ :=
  (giniScoreD s i).2.1

/-- Right weight of candidate i (dense). -/
def rightSumD (s : DenseState) (i : ℕ) : ℚ :=
  (giniScoreD s i).2.2

/-- IsFinished() for classification (grow_stats.cc lines 115-118). -/
def isFinishedD (s : DenseState) : Bool :=
  (decide (s.cfg.splitAfterSamples ≤ s.weightSum) && decide (1 < numOutputsSeenD s))
    || s.finishEarly

/-- RemoveSplit applied to each index of R in order (the callers traverse
indices highest first); removes the split and its statistics record. -/
def removeSplitsD (s : DenseState) (R : List ℕ) : DenseState :=
  { s with splits := removeIdxs s.splits R, leftCounts := removeIdxs s.leftCounts R }

open scoped Classical

/-- The score vector the classification policy checks iterate over:
MaybeCachedGiniScore of every live candidate (dense variant). -/
def scoresListD (s : DenseState) : List ℚ :=
  (List.range (numSplitsD s)).map (fun i => scoreD s i)


/-- CheckPruneHoeffding (grow_stats.cc lines 209-232): removes, scanning
from the highest index down, every candidate whose score exceeds the best
score by more than epsilon.  The half-log factor is cached at construction
in the C++ object and recomputed here. -/
noncomputable def checkPruneHoeffdingD (s : DenseState) : DenseState :=
  let n := numSplitsD s
  let best : ℚ := (minQ (scoresListD s)).getD 0
  let giniDiffRange : ℝ := (s.weightSum : ℝ) * (1 - 1 / (s.cfg.numOutputs : ℝ))
  let halfLn : ℝ := (1 / 2 : ℝ) * Real.log (1 / (1 - (s.cfg.dominateFraction : ℝ)))
  let epsilon : ℝ := giniDiffRange * Real.sqrt (halfLn / (s.weightSum : ℝ))
  let removed := ((List.range n).filter
    (fun i => decide (((scoreD s i : ℚ) : ℝ) - (best : ℝ) > epsilon))).reverse
  removeSplitsD s removed

/-- The Hoeffding bound of CheckFinishEarlyHoeffding (lines 248-253):
range * sqrt(log(1/(1-dominate_fraction)) / (2*weight_sum)) with
range = 0.25 * num_outputs * weight_sum. -/
noncomputable def hoeffdingBoundD (s : DenseState) : ℝ :=
  ((1 / 4 : ℝ) * (s.cfg.numOutputs : ℝ) * (s.weightSum : ℝ)) *
    Real.sqrt (Real.log (1 / (1 - (s.cfg.dominateFraction : ℝ))) / (2 * (s.weightSum : ℝ)))

/-- CheckFinishEarlyHoeffding (grow_stats.cc lines 248-268): sets
finish_early_ to whether the two lowest scores differ by more than the
Hoeffding bound.  With fewer than two candidates GetTwoBest has no
meaningful result and the state is returned unchanged. -/
noncomputable def checkFinishEarlyHoeffdingD (s : DenseState) : DenseState :=
  match twoBest (scoresListD s) with
  | none => s
  | some (b, s2) =>
    { s with finishEarly := decide (((s2 : ℚ) : ℝ) - ((b : ℚ) : ℝ) > hoeffdingBoundD s) }

/-- CheckFinishEarly (grow_stats.cc lines 234-246).  The bootstrap branch
draws random resamples; that randomness is external to this embedding and
its outcome is supplied as the bootstrapDraw input. -/
noncomputable def checkFinishEarlyD (bootstrapDraw : Bool) (s : DenseState) : DenseState :=
  if s.weightSum < s.cfg.minSplitSamples ∨
      s.weightSum < s.finishSampleEpoch * s.cfg.finishCheckEvery then s
  else
    let s1 := { s with finishSampleEpoch := s.finishSampleEpoch + 1 }
    match s1.cfg.finishType with
    | .hoeffding => checkFinishEarlyHoeffdingD s1
    | .bootstrap => { s1 with finishEarly := bootstrapDraw }
    | .basic => s1

/-- CheckPrune (grow_stats.cc lines 163-207): epoch gating, then either the
Hoeffding pruning or the fraction pruning via the bounded min-heap; the
selected indices are removed highest first (std::set reverse iteration). -/
noncomputable def checkPruneD (s : DenseState) : DenseState :=
  if isFinishedD s ∨ s.weightSum < s.pruneSampleEpoch * s.cfg.pruneCheckEvery then s
  else
    let s1 := { s with pruneSampleEpoch := s.pruneSampleEpoch + 1 }
    match s1.cfg.pruningType with
    | .hoeffdingPrune => checkPruneHoeffdingD s1
    | _ =>
      let n := numSplitsD s1
      let toRemove := (⌊(n : ℚ) * s1.cfg.pruneFraction⌋).toNat
      if toRemove = 0 then s1
      else removeSplitsD s1 (pruneSelect toRemove (fun i => scoreD s1 i) n).indices.reverse

/-- ClassificationStats::AddExample (grow_stats.cc lines 137-161) for the
dense variant: dec i tells whether candidate i routes the example LEFT.
The per-variant count updates (ClassificationAddLeftExample,
ClassificationAddTotalExample) live in grow_stats.h, not among the
sources.  Modelled from the spec: AddExample increments left_count[class]
by weight if routed LEFT and always increments the leaf total for that
class; then weight is added to the running total and the finish and prune
checks run. -/
noncomputable def addExampleD (dec : ℕ → Bool) (label : ℕ) (w : ℚ) (bootstrapDraw : Bool)
    (s : DenseState) : DenseState :=
  let s1 := { s with
    leftCounts := s.leftCounts.enum.map
      (fun (p : ℕ × List ℚ) => if dec p.1 then addAt p.2 label w else p.2) }
  let s2 := { s1 with totals := addAt s1.totals label w }
  let s3 := { s2 with weightSum := s2.weightSum + w }
  checkPruneD (checkFinishEarlyD bootstrapDraw s3)

/-- The SplitCandidate output filled by the dense BestSplit. -/
structure DenseOut where
  splitId : ℕ
  leftWeightSum : ℚ
  leftCounts : List ℚ
  rightWeightSum : ℚ
  rightCounts : List ℚ
  deriving DecidableEq

/-- The output record BestSplit builds for winning candidate i (dense,
grow_stats.cc lines 429-449): right counts are total - left. -/
def denseOutAt (s : DenseState) (i : ℕ) : DenseOut :=
  { splitId := s.splits.getD i 0
    leftWeightSum := leftSumD s i
    leftCounts := (List.range s.cfg.numOutputs).map (fun j => leftCountD s i j)
    rightWeightSum := rightSumD s i
    rightCounts := (List.range s.cfg.numOutputs).map (fun j => s.totals.getD j 0 - leftCountD s i j) }

/-- DenseClassificationGrowStats::BestSplit (grow_stats.cc lines 405-451). -/
def bestSplitD (s : DenseState) : Option DenseOut :=
  match selectBest (fun i => giniScoreD s i) (numSplitsD s) with
  | none => none
  | some (i, _) => some (denseOutAt s i)

/-- Sparse classification accumulator state
(SparseClassificationGrowStats): totals and left counts are id-keyed maps. -/
structure SparseState where
  cfg : ClassifConfig
  weightSum : ℚ
  totals : List (ℕ × ℚ)
  splits : List ℕ
  leftCounts : List (List (ℕ × ℚ))
  finishEarly : Bool
  finishSampleEpoch : ℚ
  pruneSampleEpoch : ℚ
  deriving DecidableEq

/-- num_splits() for the sparse variant. -/
def numSplitsS (s : SparseState) : ℕ :=
  s.splits.length

/-- The left-count map of candidate i. -/
def leftMapS (s : SparseState) (i : ℕ) : List (ℕ × ℚ) :=
  s.leftCounts.getD i []

/-- num_outputs_seen() for the sparse variant: the number of keys in the
leaf totals map. -/
def numOutputsSeenS (s : SparseState) : ℕ :=
  s.totals.length

/-- GiniScore of the sparse variant (grow_stats.cc lines 511-538): iterate
the leaf totals; a label absent from the left map contributes wholly to
the right side. -/
def giniScoreS (s : SparseState) (split : ℕ) : ℚ × ℚ × ℚ :=
  let contribs := s.totals.map (fun e =>
    match mapFind (leftMapS s split) e.1 with
    | none => ((0 : ℚ), e.2)
    | some lv => (lv, e.2 - lv))
  let leftSum := (contribs.map Prod.fst).sum
  let leftSquare := (contribs.map (fun c => c.1 * c.1)).sum
  let rightSum := (contribs.map Prod.snd).sum
  let rightSquare := (contribs.map (fun c => c.2 * c.2)).sum
  (WeightedSmoothedGini leftSum leftSquare + WeightedSmoothedGini rightSum rightSquare,
   leftSum, rightSum)

/-- Split score of candidate i (sparse). -/
def scoreS (s : SparseState) (i : ℕ) : ℚ :=
  (giniScoreS s i).1

/-- Left weight of candidate i (sparse). -/
def leftSumS (s : SparseState) (i : ℕ) : ℚ :=
  (giniScoreS s i).2.1

/-- Right weight of candidate i (sparse). -/
def rightSumS (s : SparseState) (i : ℕ) : ℚ :=
  (giniScoreS s i).2.2

/-- IsFinished() for the sparse variant. -/
def isFinishedS (s : SparseState) : Bool :=
  (decide (s.cfg.splitAfterSamples ≤ s.weightSum) && decide (1 < numOutputsSeenS s))
    || s.finishEarly

/-- RemoveSplit over a list of indices for the sparse variant. -/
def removeSplitsS (s : SparseState) (R : List ℕ) : SparseState :=
  { s with splits := removeIdxs s.splits R, leftCounts := removeIdxs s.leftCounts R }

/-- The score vector for the sparse variant. -/
def scoresListS (s : SparseState) : List ℚ :=
  (List.range (numSplitsS s)).map (fun i => scoreS s i)

/-- CheckPruneHoeffding for the sparse variant. -/
noncomputable def checkPruneHoeffdingS (s : SparseState) : SparseState :=
  let n := numSplitsS s
  let best : ℚ := (minQ (scoresListS s)).getD 0
  let giniDiffRange : ℝ := (s.weightSum : ℝ) * (1 - 1 / (s.cfg.numOutputs : ℝ))
  let halfLn : ℝ := (1 / 2 : ℝ) * Real.log (1 / (1 - (s.cfg.dominateFraction : ℝ)))
  let epsilon : ℝ := giniDiffRange * Real.sqrt (halfLn / (s.weightSum : ℝ))
  let removed := ((List.range n).filter
    (fun i => decide (((scoreS s i : ℚ) : ℝ) - (best : ℝ) > epsilon))).reverse
  removeSplitsS s removed

/-- The Hoeffding finish bound for the sparse variant. -/
noncomputable def hoeffdingBoundS (s : SparseState) : ℝ :=
  ((1 / 4 : ℝ) * (s.cfg.numOutputs : ℝ) * (s.weightSum : ℝ)) *
    Real.sqrt (Real.log (1 / (1 - (s.cfg.dominateFraction : ℝ))) / (2 * (s.weightSum : ℝ)))

/-- CheckFinishEarlyHoeffding for the sparse variant. -/
noncomputable def checkFinishEarlyHoeffdingS (s : SparseState) : SparseState :=
  match twoBest (scoresListS s) with
  | none => s
  | some (b, s2) =>
    { s with finishEarly := decide (((s2 : ℚ) : ℝ) - ((b : ℚ) : ℝ) > hoeffdingBoundS s) }

/-- CheckFinishEarly for the sparse variant. -/
noncomputable def checkFinishEarlyS (bootstrapDraw : Bool) (s : SparseState) : SparseState :=
  if s.weightSum < s.cfg.minSplitSamples ∨
      s.weightSum < s.finishSampleEpoch * s.cfg.finishCheckEvery then s
  else
    let s1 := { s with finishSampleEpoch := s.finishSampleEpoch + 1 }
    match s1.cfg.finishType with
    | .hoeffding => checkFinishEarlyHoeffdingS s1
    | .bootstrap => { s1 with finishEarly := bootstrapDraw }
    | .basic => s1

/-- CheckPrune for the sparse variant. -/
noncomputable def checkPruneS (s : SparseState) : SparseState :=
  if isFinishedS s ∨ s.weightSum < s.pruneSampleEpoch * s.cfg.pruneCheckEvery then s
  else
    let s1 := { s with pruneSampleEpoch := s.pruneSampleEpoch + 1 }
    match s1.cfg.pruningType with
    | .hoeffdingPrune => checkPruneHoeffdingS s1
    | _ =>
      let n := numSplitsS s1
      let toRemove := (⌊(n : ℚ) * s1.cfg.pruneFraction⌋).toNat
      if toRemove = 0 then s1
      else removeSplitsS s1 (pruneSelect toRemove (fun i => scoreS s1 i) n).indices.reverse

/-- ClassificationStats::AddExample for the sparse variant; the sparse
count updates are map additions (entries created on first touch).
Modelled from the spec as for the dense variant. -/
noncomputable def addExampleS (dec : ℕ → Bool) (label : ℕ) (w : ℚ) (bootstrapDraw : Bool)
    (s : SparseState) : SparseState :=
  let s1 := { s with
    leftCounts := s.leftCounts.enum.map
      (fun (p : ℕ × List (ℕ × ℚ)) => if dec p.1 then mapAdd p.2 label w else p.2) }
  let s2 := { s1 with totals := mapAdd s1.totals label w }
  let s3 := { s2 with weightSum := s2.weightSum + w }
  checkPruneS (checkFinishEarlyS bootstrapDraw s3)

/-- The SplitCandidate output filled by the sparse BestSplit. -/
structure SparseOut where
  splitId : ℕ
  leftWeightSum : ℚ
  leftCounts : List (ℕ × ℚ)
  rightWeightSum : ℚ
  rightCounts : List (ℕ × ℚ)
  deriving DecidableEq

/-- One step of the output-statistics loop of the sparse BestSplit
(grow_stats.cc lines 580-592), processing leaf-totals entry e against the
winning candidate left map lm: a label absent from lm goes wholly to the
right block; a present label puts its left count in the left block and its
residual in the right block only when that residual is strictly
positive. -/
def sparseOutStep (lm : List (ℕ × ℚ)) (acc : List (ℕ × ℚ) × List (ℕ × ℚ)) (e : ℕ × ℚ) :
    List (ℕ × ℚ) × List (ℕ × ℚ) :=
  match mapFind lm e.1 with
  | none => (acc.1, acc.2 ++ [(e.1, e.2)])
  | some lv =>
    (acc.1 ++ [(e.1, lv)],
     if 0 < e.2 - lv then acc.2 ++ [(e.1, e.2 - lv)] else acc.2)

/-- The output record BestSplit builds for winning candidate i (sparse,
grow_stats.cc lines 564-593). -/
def sparseOutAt (s : SparseState) (i : ℕ) : SparseOut :=
  let lr := s.totals.foldl (sparseOutStep (leftMapS s i)) ([], [])
  { splitId := s.splits.getD i 0
    leftWeightSum := leftSumS s i
    leftCounts := lr.1
    rightWeightSum := rightSumS s i
    rightCounts := lr.2 }

/-- SparseClassificationGrowStats::BestSplit (grow_stats.cc lines 540-594). -/
def bestSplitS (s : SparseState) : Option SparseOut :=
  match selectBest (fun i => giniScoreS s i) (numSplitsS s) with
  | none => none
  | some (i, _) => some (sparseOutAt s i)

/-- Right residual of class k for candidate i: leaf total minus the
candidate left count (absent keys read as 0). -/
def rightResidualS (s : SparseState) (i k : ℕ) : ℚ :=
  ((mapFind s.totals k).getD 0) - ((mapFind (leftMapS s i) k).getD 0)

/-- Configuration consumed by the regression variant. -/
structure RegConfig where
  numOutputs : ℕ
  splitAfterSamples : ℚ
  deriving DecidableEq

/-- Least-squares regression accumulator state
(LeastSquaresRegressionGrowStats). -/
structure RegState where
  cfg : RegConfig
  weightSum : ℚ
  totalSum : List ℚ
  totalSumSquares : List ℚ
  splits : List ℕ
  leftSums : List (List ℚ)
  leftSquares : List (List ℚ)
  leftCounts : List ℚ
  deriving DecidableEq

/-- num_splits() for the regression variant. -/
def numSplitsR (s : RegState) : ℕ :=
  s.splits.length

/-- left_sum(split, output_idx). -/
def leftSumR (s : RegState) (i j : ℕ) : ℚ :=
  (s.leftSums.getD i []).getD j 0

/-- left_square(split, output_idx). -/
def leftSquareR (s : RegState) (i j : ℕ) : ℚ :=
  (s.leftSquares.getD i []).getD j 0

/-- left_counts_[split]. -/
def leftCountR (s : RegState) (i : ℕ) : ℚ :=
  s.leftCounts.getD i 0

/-- The per-dimension accumulation loop `for j < n: row[j] += f j`. -/
def addDims (n : ℕ) (f : ℕ → ℚ) (row : List ℚ) : List ℚ :=
  (List.range n).foldl (fun r j => addAt r j (f j)) row

/-- LeastSquaresRegressionGrowStats::AddExample (grow_stats.cc lines
665-689): dec i tells whether candidate i routes the example LEFT; out j
is the target value of output dimension j.  The weight sum grows by
exactly 1 and no finish or prune check runs. -/
def addExampleR (dec : ℕ → Bool) (out : ℕ → ℚ) (s : RegState) : RegState :=
  let n := s.cfg.numOutputs
  { s with
    leftSums := s.leftSums.enum.map
      (fun (p : ℕ × List ℚ) => if dec p.1 then addDims n out p.2 else p.2)
    leftSquares := s.leftSquares.enum.map
      (fun (p : ℕ × List ℚ) => if dec p.1 then addDims n (fun j => out j * out j) p.2 else p.2)
    leftCounts := s.leftCounts.enum.map
      (fun (p : ℕ × ℚ) => if dec p.1 then p.2 + 1 else p.2)
    totalSum := addDims n out s.totalSum
    totalSumSquares := addDims n (fun j => out j * out j) s.totalSumSquares
    weightSum := s.weightSum + 1 }

/-- LeastSquaresRegressionGrowStats::SplitVariance (grow_stats.cc lines
691-712). -/
def splitVarianceR (s : RegState) (split : ℕ) : ℚ :=
  sumOver s.cfg.numOutputs (fun i =>
    let leX := leftSumR s split i / leftCountR s split
    let leX2 := leftSquareR s split i / leftCountR s split
    let reX := (s.totalSum.getD i 0 - leftSumR s split i) / (s.weightSum - leftCountR s split)
    let reX2 := (s.totalSumSquares.getD i 0 - leftSquareR s split i) /
      (s.weightSum - leftCountR s split)
    (leX2 - leX * leX) + (reX2 - reX * reX))

/-- The formula the spec states for SplitVariance, written from its words: the sum
over dimensions of (left mean-of-squares - left mean squared) plus (right
mean-of-squares - right mean squared), using right sums = total - left and
right count = total weight - left count. -/
def specSplitVariance (s : RegState) (split : ℕ) : ℚ :=
  sumOver s.cfg.numOutputs (fun i =>
    ((leftSquareR s split i / leftCountR s split) -
        (leftSumR s split i / leftCountR s split) ^ 2) +
      (((s.totalSumSquares.getD i 0 - leftSquareR s split i) /
          (s.weightSum - leftCountR s split)) -
        ((s.totalSum.getD i 0 - leftSumR s split i) /
          (s.weightSum - leftCountR s split)) ^ 2))

/-- The SplitCandidate output filled by the regression BestSplit. -/
structure RegOut where
  splitId : ℕ
  leftWeightSum : ℚ
  leftOutputSum : List ℚ
  rightWeightSum : ℚ
  rightOutputSum : List ℚ
  deriving DecidableEq

/-- The output record BestSplit builds for winning candidate i
(regression, grow_stats.cc lines 733-753). -/
def regOutAt (s : RegState) (i : ℕ) : RegOut :=
  { splitId := s.splits.getD i 0
    leftWeightSum := leftCountR s i
    leftOutputSum := (List.range s.cfg.numOutputs).map (fun j => leftSumR s i j)
    rightWeightSum := s.weightSum - leftCountR s i
    rightOutputSum := (List.range s.cfg.numOutputs).map
      (fun j => s.totalSum.getD j 0 - leftSumR s i j) }

/-- LeastSquaresRegressionGrowStats::BestSplit (grow_stats.cc lines
714-755): candidate i qualifies when its left count and its right count
(total weight minus left count) are both strictly positive. -/
def bestSplitR (s : RegState) : Option RegOut :=
  match selectBest
      (fun i => (splitVarianceR s i, leftCountR s i, s.weightSum - leftCountR s i))
      (numSplitsR s) with
  | none => none
  | some (i, _) => some (regOutAt s i)

/-- LeastSquaresRegressionGrowStats::IsFinished (grow_stats.cc lines
757-759). -/
def isFinishedR (s : RegState) : Bool :=
  decide (s.cfg.splitAfterSamples ≤ s.weightSum)

/-- The FertileSlot fields consumed by the dense variant: an optional
post-init block (weight sum, dense counts) and candidate blocks (split,
dense left counts). -/
structure FertileSlotD where
  postInit : Option (ℚ × List ℚ)
  candidates : List (ℕ × List ℚ)
  deriving DecidableEq

/-- DenseClassificationGrowStats::PackToProto (grow_stats.cc lines
361-382). -/
def packD (s : DenseState) : FertileSlotD :=
  { postInit := some (s.weightSum, (List.range s.cfg.numOutputs).map (fun i => s.totals.getD i 0))
    candidates := (List.range (numSplitsD s)).map (fun k =>
      (s.splits.getD k 0, (List.range s.cfg.numOutputs).map (fun i => leftCountD s k i))) }

/-- Modelled from the spec: the variant reset routine invoked at the top of
ExtractFromProto lives in grow_stats.h; spec 4.2: deserialization first
resets the accumulator to empty. -/
def resetD (fresh : DenseState) : DenseState :=
  { fresh with
    weightSum := 0
    totals := List.replicate fresh.cfg.numOutputs 0
    splits := []
    leftCounts := []
    finishEarly := false }

/-- DenseClassificationGrowStats::ExtractFromProto (grow_stats.cc lines
331-359), run on a fresh accumulator carrying the configuration. -/
def extractD (fresh : DenseState) (slot : FertileSlotD) : DenseState :=
  let base := resetD fresh
  match slot.postInit with
  | none => base
  | some (w, counts) =>
    { base with
      weightSum := w
      totals := (List.range fresh.cfg.numOutputs).map (fun i => counts.getD i 0)
      splits := slot.candidates.map Prod.fst
      leftCounts := slot.candidates.map (fun c =>
        (List.range fresh.cfg.numOutputs).map (fun i => c.2.getD i 0)) }

/-- The FertileSlot fields consumed by the sparse variant. -/
structure FertileSlotS where
  postInit : Option (ℚ × List (ℕ × ℚ))
  candidates : List (ℕ × List (ℕ × ℚ))
  deriving DecidableEq

/-- SparseClassificationGrowStats::PackToProto (grow_stats.cc lines
482-509): maps are emitted in iteration (key) order. -/
def packS (s : SparseState) : FertileSlotS :=
  { postInit := some (s.weightSum, s.totals)
    candidates := (List.range (numSplitsS s)).map (fun k => (s.splits.getD k 0, leftMapS s k)) }

/-- Reset for the sparse variant, modelled from the spec as for resetD. -/
def resetS (fresh : SparseState) : SparseState :=
  { fresh with
    weightSum := 0
    totals := []
    splits := []
    leftCounts := []
    finishEarly := false }

/-- SparseClassificationGrowStats::ExtractFromProto (grow_stats.cc lines
454-480). -/
def extractS (fresh : SparseState) (slot : FertileSlotS) : SparseState :=
  let base := resetS fresh
  match slot.postInit with
  | none => base
  | some (w, entries) =>
    { base with
      weightSum := w
      totals := mapOfEntries entries
      splits := slot.candidates.map Prod.fst
      leftCounts := slot.candidates.map (fun c => mapOfEntries c.2) }

/-- The FertileSlot fields consumed by the regression variant: candidate
blocks hold (split, mean_output, mean_output_squares, left weight sum). -/
structure FertileSlotR where
  postInit : Option (ℚ × List ℚ × List ℚ)
  candidates : List (ℕ × List ℚ × List ℚ × ℚ)
  deriving DecidableEq

/-- LeastSquaresRegressionGrowStats::PackToProto (grow_stats.cc lines
631-663); the totals loop runs over total_sum_.size() entries. -/
def packR (s : RegState) : FertileSlotR :=
  { postInit := some (s.weightSum, s.totalSum,
      (List.range s.totalSum.length).map (fun i => s.totalSumSquares.getD i 0))
    candidates := (List.range (numSplitsR s)).map (fun k =>
      (s.splits.getD k 0,
       (List.range s.cfg.numOutputs).map (fun i => leftSumR s k i),
       (List.range s.cfg.numOutputs).map (fun i => leftSquareR s k i),
       leftCountR s k)) }

/-- Reset for the regression variant, modelled from the spec as for
resetD. -/
def resetR (fresh : RegState) : RegState :=
  { fresh with
    weightSum := 0
    totalSum := List.replicate fresh.cfg.numOutputs 0
    totalSumSquares := List.replicate fresh.cfg.numOutputs 0
    splits := []
    leftSums := []
    leftSquares := []
    leftCounts := [] }

/-- LeastSquaresRegressionGrowStats::ExtractFromProto (grow_stats.cc lines
597-629). -/
def extractR (fresh : RegState) (slot : FertileSlotR) : RegState :=
  let base := resetR fresh
  match slot.postInit with
  | none => base
  | some (w, sums, squares) =>
    { base with
      weightSum := w
      totalSum := (List.range fresh.cfg.numOutputs).map (fun i => sums.getD i 0)
      totalSumSquares := (List.range fresh.cfg.numOutputs).map (fun i => squares.getD i 0)
      splits := slot.candidates.map (fun c => c.1)
      leftSums := slot.candidates.map (fun c =>
        (List.range fresh.cfg.numOutputs).map (fun i => c.2.1.getD i 0))
      leftSquares := slot.candidates.map (fun c =>
        (List.range fresh.cfg.numOutputs).map (fun i => c.2.2.1.getD i 0))
      leftCounts := slot.candidates.map (fun c => c.2.2.2) }

/-- Shape invariant of a dense state: the count arrays have the configured
width and the statistics records align with the candidate sequence. -/
def WFdense (s : DenseState) : Prop :=
  s.totals.length = s.cfg.numOutputs ∧
  s.leftCounts.length = s.splits.length ∧
  ∀ row ∈ s.leftCounts, row.length = s.cfg.numOutputs

/-- Keys of an association list are strictly ascending (std::map order). -/
def keysAscending (m : List (ℕ × ℚ)) : Prop :=
  m.Pairwise (fun a b => a.1 < b.1)

/-- Shape invariant of a sparse state. -/
def WFsparse (s : SparseState) : Prop :=
  keysAscending s.totals ∧
  s.leftCounts.length = s.splits.length ∧
  ∀ row ∈ s.leftCounts, keysAscending row

/-- Shape invariant of a regression state. -/
def WFreg (s : RegState) : Prop :=
  s.totalSum.length = s.cfg.numOutputs ∧
  s.totalSumSquares.length = s.cfg.numOutputs ∧
  s.leftSums.length = s.splits.length ∧
  s.leftSquares.length = s.splits.length ∧
  s.leftCounts.length = s.splits.length ∧
  (∀ row ∈ s.leftSums, row.length = s.cfg.numOutputs) ∧
  (∀ row ∈ s.leftSquares, row.length = s.cfg.numOutputs)

/-- The round-trip observables of a dense state: total weight, leaf
totals, candidate split sequence, per-candidate left statistics. -/
def obsD (s : DenseState) : ℚ × List ℚ × List ℕ × List (List ℚ) :=
  (s.weightSum, s.totals, s.splits, s.leftCounts)

/-- The round-trip observables of a sparse state. -/
def obsS (s : SparseState) : ℚ × List (ℕ × ℚ) × List ℕ × List (List (ℕ × ℚ)) :=
  (s.weightSum, s.totals, s.splits, s.leftCounts)

/-- The round-trip observables of a regression state. -/
def obsR (s : RegState) :
    ℚ × List ℚ × List ℚ × List ℕ × List (List ℚ) × List (List ℚ) × List ℚ :=
  (s.weightSum, s.totalSum, s.totalSumSquares, s.splits, s.leftSums, s.leftSquares, s.leftCounts)

/-- Invariant of the CheckPrune heap loop after the first m candidates were
offered: the heap is sorted with faithful (score, index) pairs of distinct
indices below m, it holds min k m of them, the index set mirrors the heap,
and every candidate already excluded scores no higher than anything held. -/
def SelInv (k : ℕ) (score : ℕ → ℚ) (m : ℕ) (st : Sel) : Prop :=
  st.worst.Sorted pairLe ∧
  (∀ x ∈ st.worst, x.2 < m ∧ x.1 = score x.2) ∧
  (st.worst.map Prod.snd).Nodup ∧
  st.worst.length = min k m ∧
  st.indices.Sorted (· ≤ ·) ∧
  st.indices.Perm (st.worst.map Prod.snd) ∧
  (∀ j < m, j ∉ st.worst.map Prod.snd → ∀ x ∈ st.worst, score j ≤ x.1)

/-- One classification training example as the accumulator sees it: the
routing decisions of the live candidates, the class label, the weight, and
the externally drawn bootstrap outcome. -/
structure DenseEx where
  dec : ℕ → Bool
  label : ℕ
  w : ℚ
  draw : Bool

/-- Feeding a sequence of examples to a dense accumulator. -/
noncomputable def addExampleListD (exs : List DenseEx) (s : DenseState) : DenseState :=
  exs.foldl (fun st e => addExampleD e.dec e.label e.w e.draw st) s

/-- One regression training example: routing decisions and the per-output
target values. -/
structure RegEx where
  dec : ℕ → Bool
  out : ℕ → ℚ

/-- Feeding a sequence of examples to a regression accumulator. -/
def addExampleListR (exs : List RegEx) (s : RegState) : RegState :=
  exs.foldl (fun st e => addExampleR e.dec e.out st) s

/-- A half-pruning configuration used by the concrete pruning scenarios. -/
def cfgC1 : ClassifConfig :=
  { splitAfterSamples := 100, numOutputs := 2, minSplitSamples := 50, finishCheckEvery := 1,
    finishType := .basic, pruningType := .half, pruneCheckEvery := 1, pruneFraction := 1 / 2,
    dominateFraction := 0 }

/-- A dense accumulator with two candidates: candidate 0 mixes the classes
on both sides (score 2, the worst), candidate 1 separates them perfectly
(score 0, the best); its prune epoch is due. -/
def stC1 : DenseState :=
  { cfg := cfgC1, weightSum := 3, totals := [2, 2], splits := [10, 20],
    leftCounts := [[1, 1], [2, 0]], finishEarly := false, finishSampleEpoch := 0,
    pruneSampleEpoch := 1 }

/-- A dense accumulator whose single candidate routes all mass LEFT. -/
def stDegenC2 : DenseState :=
  { cfg := cfgC1, weightSum := 3, totals := [3, 0], splits := [4],
    leftCounts := [[3, 0]], finishEarly := false, finishSampleEpoch := 0,
    pruneSampleEpoch := 1 }

/-- Parameters with the basic finish strategy and the Hoeffding pruning
strategy, with the dominate fraction absent (and its default value 0
outside (0, 1]). -/
def pBadC3 : TFParams :=
  { finishType := .basic, finishCheckEverySteps := 0, hasDominateFraction := false,
    dominateFraction := 0, hasMinSplitSamples := false, minSplitSamples := 0,
    pruningType := .hoeffdingPrune, pruneEverySamples := 10, splitAfterSamples := 25,
    numOutputs := 2 }

/-- Parameters with the basic finish strategy and the Hoeffding pruning
strategy whose dominate fraction 3/2 lies outside (0, 1]. -/
def pC3w : TFParams :=
  { finishType := .basic, finishCheckEverySteps := 0, hasDominateFraction := true,
    dominateFraction := 3 / 2, hasMinSplitSamples := false, minSplitSamples := 0,
    pruningType := .hoeffdingPrune, pruneEverySamples := 10, splitAfterSamples := 25,
    numOutputs := 2 }

/-- A configuration using the Hoeffding early-finish strategy. -/
def cfgC5 : ClassifConfig :=
  { splitAfterSamples := 100, numOutputs := 2, minSplitSamples := 2, finishCheckEvery := 1,
    finishType := .hoeffding, pruningType := .noPrune, pruneCheckEvery := 0, pruneFraction := 0,
    dominateFraction := 1 / 2 }

/-- A dense accumulator with two candidates for the finish check. -/
def stC5 : DenseState :=
  { cfg := cfgC5, weightSum := 4, totals := [2, 2], splits := [1, 2],
    leftCounts := [[1, 1], [2, 0]], finishEarly := false, finishSampleEpoch := 2,
    pruneSampleEpoch := 0 }

/-- A no-pruning configuration for the sparse scenarios. -/
def cfgC6 : ClassifConfig :=
  { splitAfterSamples := 100, numOutputs := 3, minSplitSamples := 50, finishCheckEvery := 1,
    finishType := .basic, pruningType := .noPrune, pruneCheckEvery := 0, pruneFraction := 0,
    dominateFraction := 0 }

/-- A persisted record carrying a zero-valued sparse count for class 1. -/
def slotC6 : FertileSlotS :=
  { postInit := some (5, [(0, 5), (1, 0)]), candidates := [(7, [(0, 2)])] }

/-- A fresh sparse accumulator. -/
def freshC6 : SparseState :=
  { cfg := cfgC6, weightSum := 0, totals := [], splits := [], leftCounts := [],
    finishEarly := false, finishSampleEpoch := 0, pruneSampleEpoch := 0 }

/-- The sparse accumulator deserialized from slotC6: class 1 has leaf total
0 and is absent from the left map of the only candidate. -/
def stC6 : SparseState :=
  { cfg := cfgC6, weightSum := 5, totals := [(0, 5), (1, 0)], splits := [7],
    leftCounts := [[(0, 2)]], finishEarly := false, finishSampleEpoch := 0,
    pruneSampleEpoch := 0 }

/-- A sparse accumulator whose leaf totals are all strictly positive. -/
def stC6w : SparseState :=
  { cfg := cfgC6, weightSum := 7, totals := [(0, 5), (1, 2)], splits := [7],
    leftCounts := [[(0, 2)]], finishEarly := false, finishSampleEpoch := 0,
    pruneSampleEpoch := 0 }

/-- A small dense accumulator for the round-trip scenario. -/
def stC7d : DenseState :=
  { cfg := cfgC1, weightSum := 5, totals := [3, 2], splits := [11, 12],
    leftCounts := [[1, 0], [2, 2]], finishEarly := false, finishSampleEpoch := 0,
    pruneSampleEpoch := 1 }

/-- A fresh dense accumulator sharing the configuration of stC7d. -/
def freshC7d : DenseState :=
  { cfg := cfgC1, weightSum := 0, totals := [0, 0], splits := [], leftCounts := [],
    finishEarly := false, finishSampleEpoch := 0, pruneSampleEpoch := 1 }

/-- The regression accumulator of the concrete scenario before any example
was fed: one output dimension, one candidate. -/
def stC8a : RegState :=
  { cfg := { numOutputs := 1, splitAfterSamples := 10 }, weightSum := 0, totalSum := [0],
    totalSumSquares := [0], splits := [3], leftSums := [[0]], leftSquares := [[0]],
    leftCounts := [0] }

/-- The scenario state: values 1.0 (LEFT), 3.0 (LEFT), 5.0 (RIGHT) fed to
stC8a. -/
def stC8 : RegState :=
  addExampleR (fun _ => false) (fun _ => 5)
    (addExampleR (fun _ => true) (fun _ => 3)
      (addExampleR (fun _ => true) (fun _ => 1) stC8a))

/-- A dense accumulator for the weight-monotonicity scenario. -/
def stC9 : DenseState :=
  { cfg := cfgC1, weightSum := 2, totals := [1, 1], splits := [10],
    leftCounts := [[1, 0]], finishEarly := false, finishSampleEpoch := 0,
    pruneSampleEpoch := 3 }

/-- One concrete classification example of weight 1. -/
def exC9 : DenseEx :=
  { dec := fun _ => true, label := 0, w := 1, draw := false }

end TensorForest

namespace TensorForest

/-
Helper lemmas.
-/

lemma minQ_eq_none_iff (l : List ℚ) : minQ l = none ↔ l = [] := by
  cases l <;> simp [minQ]

lemma minQ_mem : ∀ {l : List ℚ} {m : ℚ}, minQ l = some m → m ∈ l := by
  intro l
  induction l with
  | nil => intro m h; simp [minQ] at h
  | cons a t ih =>
    intro m h
    rw [minQ] at h
    cases ht : minQ t with
    | none =>
      rw [ht] at h
      simp at h
      simp [h]
    | some mt =>
      rw [ht] at h
      simp at h
      rcases min_cases a mt with ⟨he, _⟩ | ⟨he, _⟩
      · rw [← h, he]
        exact List.mem_cons_self _ _
      · rw [← h, he]
        exact List.mem_cons_of_mem a (ih ht)

lemma minQ_le : ∀ {l : List ℚ} {m : ℚ}, minQ l = some m → ∀ x ∈ l, m ≤ x := by
  intro l
  induction l with
  | nil => intro m h; simp [minQ] at h
  | cons a t ih =>
    intro m h x hx
    rw [minQ] at h
    cases ht : minQ t with
    | none =>
      rw [ht] at h
      simp at h
      rcases List.mem_cons.mp hx with rfl | hxt
      · exact le_of_eq h.symm
      · rw [minQ_eq_none_iff] at ht
        subst ht
        simp at hxt
    | some mt =>
      rw [ht] at h
      simp at h
      rcases List.mem_cons.mp hx with rfl | hxt
      · rw [← h]; exact min_le_left _ _
      · calc m ≤ mt := by rw [← h]; exact min_le_right _ _
          _ ≤ x := ih ht x hxt

lemma minQ_eq_of_min {l : List ℚ} {b : ℚ} (hmem : b ∈ l) (hle : ∀ x ∈ l, b ≤ x) :
    minQ l = some b := by
  cases hm : minQ l with
  | none =>
    rw [minQ_eq_none_iff] at hm
    subst hm
    simp at hmem
  | some m =>
    have h1 : m ≤ b := minQ_le hm b hmem
    have h2 : b ≤ m := hle m (minQ_mem hm)
    rw [le_antisymm h1 h2]

lemma keepAux_nil {α : Type} : ∀ (k : ℕ) (l : List α), keepAux [] k l = l := by
  intro k l
  induction l generalizing k with
  | nil => rfl
  | cons a t ih => simp [keepAux, ih]

lemma keepAux_of_high {α : Type} (R : List ℕ) :
    ∀ (l : List α) (k : ℕ), (∀ j ∈ R, j < k) → keepAux R k l = l := by
  intro l
  induction l with
  | nil => intro k _; rfl
  | cons a t ih =>
    intro k h
    rw [keepAux, if_neg, ih (k + 1) (fun j hj => Nat.lt_succ_of_lt (h j hj))]
    intro hk
    exact absurd (h k hk) (lt_irrefl k)

lemma eraseIdx_keepAux {α : Type} (i : ℕ) (rest : List ℕ) (hrest : ∀ j ∈ rest, j < i) :
    ∀ (l : List α) (k : ℕ), k ≤ i →
      keepAux rest k (l.eraseIdx (i - k)) = keepAux (i :: rest) k l := by
  intro l
  induction l with
  | nil => intro k _; simp [List.eraseIdx, keepAux]
  | cons a t ih =>
    intro k hk
    rcases Nat.eq_or_lt_of_le hk with rfl | hk2
    · rw [Nat.sub_self]
      show keepAux rest k (List.eraseIdx (a :: t) 0) = keepAux (k :: rest) k (a :: t)
      rw [List.eraseIdx]
      rw [keepAux, if_pos (List.mem_cons_self k rest)]
      rw [keepAux_of_high rest t k hrest,
        keepAux_of_high (k :: rest) t (k + 1) ?_]
      intro j hj
      rcases List.mem_cons.mp hj with rfl | hj2
      · exact Nat.lt_succ_self j
      · exact Nat.lt_succ_of_lt (hrest j hj2)
    · have hs : i - k = (i - (k + 1)) + 1 := by omega
      rw [hs]
      show keepAux rest k (a :: List.eraseIdx t (i - (k + 1))) = keepAux (i :: rest) k (a :: t)
      rw [keepAux, keepAux]
      have hne : (k ∈ i :: rest) ↔ k ∈ rest := by
        constructor
        · intro h
          rcases List.mem_cons.mp h with rfl | h2
          · exact absurd hk2 (lt_irrefl k)
          · exact h2
        · exact fun h => List.mem_cons_of_mem i h
      by_cases hm : k ∈ rest
      · rw [if_pos hm, if_pos (hne.mpr hm)]
        exact ih (k + 1) hk2
      · rw [if_neg hm, if_neg (fun h => hm (hne.mp h))]
        rw [ih (k + 1) hk2]

lemma removeIdxs_eq_keepAux {α : Type} :
    ∀ (R : List ℕ), R.Pairwise (fun a b => b < a) →
      ∀ (l : List α), removeIdxs l R = keepAux R 0 l := by
  intro R
  induction R with
  | nil => intro _ l; simp [removeIdxs, keepAux_nil]
  | cons i rest ih =>
    intro hp l
    have hrest : ∀ j ∈ rest, j < i := (List.pairwise_cons.mp hp).1
    have h1 : removeIdxs l (i :: rest) = removeIdxs (l.eraseIdx i) rest := rfl
    rw [h1, ih (List.pairwise_cons.mp hp).2 (l.eraseIdx i)]
    have := eraseIdx_keepAux i rest hrest l 0 (Nat.zero_le i)
    simpa using this

lemma recoverList {α : Type} (d : α) :
    ∀ (l : List α), (List.range l.length).map (fun i => l.getD i d) = l := by
  intro l
  induction l with
  | nil => simp
  | cons a t ih =>
    rw [List.length_cons, List.range_succ_eq_map, List.map_cons, List.map_map]
    have h0 : (a :: t).getD 0 d = a := rfl
    have h1 : ((fun i => (a :: t).getD i d) ∘ Nat.succ) = fun i => t.getD i d := by
      funext i
      simp [List.getD_cons_succ]
    rw [h0, h1, ih]

lemma recoverListLen {α : Type} (d : α) (l : List α) (n : ℕ) (h : l.length = n) :
    (List.range n).map (fun i => l.getD i d) = l := by
  subst h
  exact recoverList d l

lemma mapAssign_append (m : List (ℕ × ℚ)) (k : ℕ) (v : ℚ) (h : ∀ e ∈ m, e.1 < k) :
    mapAssign m k v = m ++ [(k, v)] := by
  induction m with
  | nil => rfl
  | cons p t ih =>
    have hp : p.1 < k := h p (List.mem_cons_self p t)
    show mapAssign (p :: t) k v = p :: t ++ [(k, v)]
    rw [mapAssign, if_neg (by omega), if_neg (by omega)]
    rw [ih (fun e he => h e (List.mem_cons_of_mem p he))]
    rfl

lemma mapOfEntries_aux :
    ∀ (l m : List (ℕ × ℚ)), l.Pairwise (fun a b => a.1 < b.1) →
      (∀ e ∈ m, ∀ x ∈ l, e.1 < x.1) →
      l.foldl (fun acc e => mapAssign acc e.1 e.2) m = m ++ l := by
  intro l
  induction l with
  | nil => intro m _ _; simp
  | cons p t ih =>
    intro m hp hml
    rw [List.foldl_cons]
    have h1 : mapAssign m p.1 p.2 = m ++ [p] := by
      rw [mapAssign_append m p.1 p.2 (fun e he => hml e he p (List.mem_cons_self p t))]
    rw [h1, ih (m ++ [p]) (List.pairwise_cons.mp hp).2 ?_]
    · simp
    · intro e he x hx
      rcases List.mem_append.mp he with he2 | he2
      · exact hml e he2 x (List.mem_cons_of_mem p hx)
      · have : e = p := by simpa using he2
        subst this
        exact (List.pairwise_cons.mp hp).1 x hx

lemma mapOfEntries_id (l : List (ℕ × ℚ)) (h : keysAscending l) : mapOfEntries l = l := by
  have := mapOfEntries_aux l [] h (by simp)
  simpa [mapOfEntries] using this

lemma numBootstrapLoop_zero_p : ∀ (f s : ℕ), numBootstrapLoop f 0 s = none := by
  intro f
  induction f with
  | zero => intro s; rfl
  | succ f ih =>
    intro s
    rw [numBootstrapLoop, if_pos (by norm_num)]
    simpa using ih (s + 1)

lemma numBootstrapLoop_mono :
    ∀ (f : ℕ) {g s n : ℕ} {p : ℚ}, numBootstrapLoop f p s = some n → f ≤ g →
      numBootstrapLoop g p s = some n := by
  intro f
  induction f with
  | zero => intro g s n p h _; simp [numBootstrapLoop] at h
  | succ f ih =>
    intro g s n p h hfg
    obtain ⟨g2, rfl⟩ : ∃ k, g = k + 1 := ⟨g - 1, by omega⟩
    rw [numBootstrapLoop] at h ⊢
    by_cases hp : p < 1
    · rw [if_pos hp] at h ⊢
      exact ih h (by omega)
    · rw [if_neg hp] at h ⊢
      exact h

lemma numBootstrapLoop_run :
    ∀ (k : ℕ) {p : ℚ}, 0 < p → 1 ≤ p * 2 ^ k → (∀ j < k, p * 2 ^ j < 1) →
      ∀ (s : ℕ), numBootstrapLoop (k + 1) p s = some (s + k) := by
  intro k
  induction k with
  | zero =>
    intro p hp hk _ s
    rw [numBootstrapLoop, if_neg (by simpa using hk)]
    simp
  | succ k ih =>
    intro p hp hk hmin s
    have hp1 : p < 1 := by simpa using hmin 0 (Nat.succ_pos k)
    rw [numBootstrapLoop, if_pos hp1]
    have h2 : 1 ≤ p * 2 * 2 ^ k := by
      calc (1 : ℚ) ≤ p * 2 ^ (k + 1) := hk
        _ = p * 2 * 2 ^ k := by ring
    have h3 : ∀ j < k, p * 2 * 2 ^ j < 1 := by
      intro j hj
      calc p * 2 * 2 ^ j = p * 2 ^ (j + 1) := by ring
        _ < 1 := hmin (j + 1) (by omega)
    have := ih (mul_pos hp (by norm_num)) h2 h3 (s + 1)
    rw [this]
    congr 1
    omega

lemma selectBest_succ (f : ℕ → ℚ × ℚ × ℚ) (n : ℕ) :
    selectBest f (n + 1) = selBestStep f (selectBest f n) n := by
  rw [selectBest, selectBest, List.range_succ, List.foldl_append, List.foldl_cons, List.foldl_nil]

lemma selBestStep_ne_none (f : ℕ → ℚ × ℚ × ℚ) (a : ℕ × ℚ × ℚ × ℚ) (i : ℕ) :
    selBestStep f (some a) i ≠ none := by
  unfold selBestStep
  split <;> simp

lemma selectBest_none_iff (f : ℕ → ℚ × ℚ × ℚ) :
    ∀ n, (selectBest f n = none ↔ ∀ i < n, ¬(0 < (f i).2.1 ∧ 0 < (f i).2.2)) := by
  intro n
  induction n with
  | zero => simp [selectBest]
  | succ n ih =>
    rw [selectBest_succ]
    constructor
    · intro h
      cases hs : selectBest f n with
      | some a => rw [hs] at h; exact absurd h (selBestStep_ne_none f a n)
      | none =>
        rw [hs] at h
        intro i hi
        rcases Nat.lt_succ_iff_lt_or_eq.mp hi with hi2 | rfl
        · exact ih.mp hs i hi2
        · intro hq
          unfold selBestStep at h
          rw [if_pos ⟨hq.1, hq.2, by exact trivial⟩] at h
          exact Option.noConfusion h
    · intro h
      have hn : selectBest f n = none := ih.mpr (fun i hi => h i (Nat.lt_succ_of_lt hi))
      rw [hn]
      unfold selBestStep
      rw [if_neg]
      intro hc
      exact h n (Nat.lt_succ_self n) ⟨hc.1, hc.2.1⟩

lemma selectBest_some_spec (f : ℕ → ℚ × ℚ × ℚ) :
    ∀ n i t, selectBest f n = some (i, t) →
      i < n ∧ t = f i ∧ 0 < t.2.1 ∧ 0 < t.2.2 ∧
        ∀ j < n, 0 < (f j).2.1 → 0 < (f j).2.2 → t.1 ≤ (f j).1 := by
  intro n
  induction n with
  | zero => intro i t h; simp [selectBest] at h
  | succ n ih =>
    intro i t h
    rw [selectBest_succ] at h
    by_cases hc : 0 < (f n).2.1 ∧ 0 < (f n).2.2 ∧ beats (selectBest f n) (f n).1
    · rw [selBestStep, if_pos hc] at h
      injection h with h2
      injection h2 with h3 h4
      obtain ⟨rfl, rfl⟩ : i = n ∧ t = f n := ⟨h3.symm, h4.symm⟩
      obtain ⟨hl, hr, hb⟩ := hc
      refine ⟨Nat.lt_succ_self i, rfl, hl, hr, ?_⟩
      intro j hj hjl hjr
      rcases Nat.lt_succ_iff_lt_or_eq.mp hj with hj2 | rfl
      · cases hs : selectBest f i with
        | none => exact absurd ⟨hjl, hjr⟩ ((selectBest_none_iff f i).mp hs j hj2)
        | some a =>
          obtain ⟨a1, a2⟩ := a
          obtain ⟨_, ha2, _, _, hmin⟩ := ih a1 a2 hs
          rw [hs] at hb
          have hb2 : (f i).1 < a2.1 := hb
          exact le_of_lt (lt_of_lt_of_le hb2 (hmin j hj2 hjl hjr))
      · exact le_refl _
    · rw [selBestStep, if_neg hc] at h
      obtain ⟨hin, ht, hl, hr, hmin⟩ := ih i t h
      refine ⟨Nat.lt_succ_of_lt hin, ht, hl, hr, ?_⟩
      intro j hj hjl hjr
      rcases Nat.lt_succ_iff_lt_or_eq.mp hj with hj2 | rfl
      · exact hmin j hj2 hjl hjr
      · by_contra hlt
        refine hc ⟨hjl, hjr, ?_⟩
        rw [h]
        exact lt_of_not_le hlt

lemma numBootstrap_char : ∀ df : ℚ, 0 < df → df < 1 →
    ∃ s : ℕ,
      (∃ fuel, numBootstrapSamplesFuel fuel df = some s) ∧
      (∀ fuel n, numBootstrapSamplesFuel fuel df = some n → n = s) ∧
      2 ≤ s ∧ 1 ≤ (1 - df) * 2 ^ (s - 1) ∧ (1 - df) * 2 ^ (s - 2) < 1 := by
  intro df h0 h1
  have hp0 : 0 < 1 - df := by linarith
  have hp1 : 1 - df < 1 := by linarith
  have hex : ∃ k : ℕ, 1 ≤ (1 - df) * 2 ^ k := by
    obtain ⟨k, hk⟩ := pow_unbounded_of_one_lt (1 / (1 - df)) (by norm_num : (1 : ℚ) < 2)
    refine ⟨k, ?_⟩
    rw [div_lt_iff₀ hp0] at hk
    calc (1 : ℚ) ≤ 2 ^ k * (1 - df) := le_of_lt hk
      _ = (1 - df) * 2 ^ k := mul_comm _ _
  have hk1 : 1 ≤ (1 - df) * 2 ^ Nat.find hex := Nat.find_spec hex
  have hkmin : ∀ j < Nat.find hex, (1 - df) * 2 ^ j < 1 :=
    fun j hj => lt_of_not_le (Nat.find_min hex hj)
  have hkpos : 1 ≤ Nat.find hex := by
    rcases Nat.eq_zero_or_pos (Nat.find hex) with h | h
    · exfalso
      have h2 := hk1
      rw [h] at h2
      simp at h2
      linarith
    · exact h
  have hrun := numBootstrapLoop_run (Nat.find hex) hp0 hk1 hkmin 1
  refine ⟨1 + Nat.find hex, ⟨Nat.find hex + 1, ?_⟩, ?_, by omega, ?_, ?_⟩
  · rw [numBootstrapSamplesFuel]
    exact hrun
  · intro fuel n hfn
    rw [numBootstrapSamplesFuel] at hfn
    have ha := numBootstrapLoop_mono fuel hfn (Nat.le_max_left fuel (Nat.find hex + 1))
    have hb := numBootstrapLoop_mono (Nat.find hex + 1) hrun
      (Nat.le_max_right fuel (Nat.find hex + 1))
    rw [ha] at hb
    exact Option.some.inj hb
  · have he : 1 + Nat.find hex - 1 = Nat.find hex := by omega
    rw [he]
    exact hk1
  · have he : 1 + Nat.find hex - 2 = Nat.find hex - 1 := by omega
    rw [he]
    exact hkmin (Nat.find hex - 1) (by omega)

/-- Claim C3 (counterexample): constructing classification statistics with
the basic finish strategy, the concentration-bound (SPLIT_PRUNE_HOEFFDING)
pruning strategy, and an absent dominate fraction (with proto default 0,
outside (0,1]) succeeds without any fatal error, although the claim
requires construction to fail fatally whenever a required parameter is
absent or out of range for any strategy using the dominate fraction,
including the concentration-bound pruning strategy. -/
theorem C3_counterexample : isFatalCfg pBadC3 = false := by
  norm_num [isFatalCfg, mkClassificationStats, pBadC3]

/-- Claim C3 (amended): construction fails fatally if and only if the
selected early-finish strategy is non-basic and the dominate fraction or
the minimum-sample threshold is absent or the dominate fraction lies
outside (0,1]; the concentration-bound pruning strategy performs no such
validation and reads the dominate fraction unvalidated. -/
theorem C3_fatal_iff : ∀ p : TFParams,
    (isFatalCfg p = true ↔
      p.finishType ≠ FinishStrategy.basic ∧
        (¬ p.hasDominateFraction ∨ ¬ p.hasMinSplitSamples ∨
          p.dominateFraction ≤ 0 ∨ 1 < p.dominateFraction)) ∧
    (p.finishType = FinishStrategy.basic → p.pruningType = PruneStrategy.hoeffdingPrune →
      ∃ c, mkClassificationStats p = Except.ok c ∧
        c.cfg.dominateFraction = p.dominateFraction) := by
  intro p
  constructor
  · unfold isFatalCfg mkClassificationStats
    by_cases h1 : p.finishType = FinishStrategy.basic
    · rw [if_pos h1]
      simp [h1]
    · rw [if_neg h1]
      by_cases h2 : ¬ p.hasDominateFraction ∨ ¬ p.hasMinSplitSamples
      · rw [if_pos h2]
        simp only [show (true = true) = True from by simp, true_iff]
        exact ⟨h1, by tauto⟩
      · rw [if_neg h2]
        by_cases h3 : p.dominateFraction ≤ 0 ∨ 1 < p.dominateFraction
        · rw [if_pos h3]
          simp only [show (true = true) = True from by simp, true_iff]
          exact ⟨h1, by tauto⟩
        · rw [if_neg h3]
          simp only [show (false = true) = False from by simp, false_iff]
          push_neg at h2 h3
          intro hcon
          rcases hcon.2 with h | h | h | h
          · exact h (by simp [h2.1])
          · exact h (by simp [h2.2])
          · exact absurd h (not_le.mpr (h3.1))
          · exact absurd h (not_lt.mpr (h3.2))
  · intro hb hp
    refine ⟨finishCtor p { baseCfg p with minSplitSamples := p.splitAfterSamples } 0, ?_, ?_⟩
    · unfold mkClassificationStats
      rw [if_pos hb]
    · unfold finishCtor applyPruneParams
      rw [if_neg (by rw [hp]; intro hcon; exact PruneStrategy.noConfusion hcon)]
      simp [hp]

/-- Claim C3 (witness): the amended theorem instantiated at concrete
parameters with the basic finish strategy, Hoeffding pruning, and dominate
fraction 3/2 outside (0,1]: construction succeeds and the out-of-range
value is adopted unvalidated. -/
theorem C3_witness :
    ∃ c, mkClassificationStats pC3w = Except.ok c ∧
      c.cfg.dominateFraction = pC3w.dominateFraction :=
  (C3_fatal_iff pC3w).2 rfl rfl

/-- Claim C4 (counterexample): at dominate fraction 1/2 the code returns 2
bootstrap samples, but s = 2 does not satisfy the claimed bound
(1 - dominate_fraction) < 2^(-s) (1/2 < 1/4 fails) and neither does s = 1,
while s = 0 satisfies it; hence the smallest satisfying integer, clamped
to a minimum of 1, is 1 and differs from the returned 2. -/
theorem C4_counterexample :
    numBootstrapSamplesFuel 8 (1 / 2) = some 2 ∧
    ((1 : ℚ) - 1 / 2 < (2 : ℚ) ^ (-(0 : ℤ))) ∧
    ¬ ((1 : ℚ) - 1 / 2 < (2 : ℚ) ^ (-(1 : ℤ))) ∧
    ¬ ((1 : ℚ) - 1 / 2 < (2 : ℚ) ^ (-(2 : ℤ))) := by
  refine ⟨?_, by norm_num, by norm_num, by norm_num⟩
  norm_num [numBootstrapSamplesFuel, numBootstrapLoop]

/-- Claim C4 (amended): for every dominate fraction in (0,1),
NumBootstrapSamples returns 1 + k where k is the least number of doublings
bringing 1 - dominate_fraction up to at least 1; equivalently the unique
s >= 2 with (1-df)*2^(s-1) >= 1 and (1-df)*2^(s-2) < 1. -/
theorem C4_bootstrap_samples : ∀ df : ℚ, 0 < df → df < 1 →
    ∃ s : ℕ,
      (∃ fuel, numBootstrapSamplesFuel fuel df = some s) ∧
      (∀ fuel n, numBootstrapSamplesFuel fuel df = some n → n = s) ∧
      2 ≤ s ∧ 1 ≤ (1 - df) * 2 ^ (s - 1) ∧ (1 - df) * 2 ^ (s - 2) < 1 :=
  numBootstrap_char

/-- Claim C4 (witness): the amended theorem at dominate fraction 1/2. -/
theorem C4_witness :
    (0 : ℚ) < 1 / 2 ∧ (1 / 2 : ℚ) < 1 ∧
    ∃ s : ℕ,
      (∃ fuel, numBootstrapSamplesFuel fuel (1 / 2) = some s) ∧
      (∀ fuel n, numBootstrapSamplesFuel fuel (1 / 2) = some n → n = s) ∧
      2 ≤ s ∧ 1 ≤ (1 - (1 / 2 : ℚ)) * 2 ^ (s - 1) ∧ (1 - (1 / 2 : ℚ)) * 2 ^ (s - 2) < 1 :=
  ⟨by norm_num, by norm_num, C4_bootstrap_samples (1 / 2) (by norm_num) (by norm_num)⟩

/-- Claim C10 (counterexample): at dominate fraction 1 — which construction
accepts, since it allows all of (0,1] — the loop state p = 1 - 1 = 0
satisfies p < 1 forever (0 * 2 = 0), so NumBootstrapSamples does not
terminate. -/
theorem C10_counterexample : ¬ numBootstrapTerminates 1 := by
  rintro ⟨fuel, n, h⟩
  rw [numBootstrapSamplesFuel] at h
  have h0 : (1 : ℚ) - 1 = 0 := by norm_num
  rw [h0, numBootstrapLoop_zero_p] at h
  exact Option.noConfusion h

/-- Claim C10 (amended): the doubling loop of NumBootstrapSamples
terminates and returns a positive integer for every dominate fraction in
(0,1); at dominate fraction 1 it does not terminate. -/
theorem C10_bootstrap_terminates : ∀ df : ℚ, 0 < df → df < 1 →
    numBootstrapTerminates df ∧
      ∀ fuel n, numBootstrapSamplesFuel fuel df = some n → 1 ≤ n := by
  intro df h0 h1
  obtain ⟨s, ⟨fuel, hs⟩, huniq, hs2, _, _⟩ := numBootstrap_char df h0 h1
  refine ⟨⟨fuel, s, hs⟩, ?_⟩
  intro fuel2 n hn
  have := huniq fuel2 n hn
  omega

/-- Claim C10 (witness): the amended theorem at dominate fraction 3/4. -/
theorem C10_witness :
    (0 : ℚ) < 3 / 4 ∧ (3 / 4 : ℚ) < 1 ∧ numBootstrapTerminates (3 / 4) :=
  ⟨by norm_num, by norm_num, (C10_bootstrap_terminates (3 / 4) (by norm_num) (by norm_num)).1⟩

end TensorForest

namespace TensorForest

lemma pairLe_fst {a b : ℚ × ℕ} (h : pairLe a b) : a.1 ≤ b.1 := by
  rcases h with h | ⟨h, _⟩
  · exact le_of_lt h
  · exact le_of_eq h

lemma mem_of_nodup_length_lt {l : List ℕ} {m : ℕ} (hnd : l.Nodup) (hlen : l.length = m)
    (hlt : ∀ x ∈ l, x < m) : ∀ j < m, j ∈ l := by
  intro j hj
  by_contra hjl
  have h1 : l.toFinset.card = m := by
    rw [List.toFinset_card_of_nodup hnd, hlen]
  have h2 : l.toFinset ⊆ (Finset.range m).erase j := by
    intro x hx
    rw [Finset.mem_erase, Finset.mem_range]
    have hxl := List.mem_toFinset.mp hx
    exact ⟨fun he => hjl (he ▸ hxl), hlt x hxl⟩
  have h3 := Finset.card_le_card h2
  rw [h1, Finset.card_erase_of_mem (Finset.mem_range.mpr hj), Finset.card_range] at h3
  omega

lemma selInv_init (k : ℕ) (score : ℕ → ℚ) : SelInv k score 0 ⟨[], []⟩ := by
  refine ⟨List.sorted_nil, ?_, ?_, ?_, List.sorted_nil, ?_, ?_⟩ <;> simp

lemma selInv_step (k : ℕ) (score : ℕ → ℚ) (m : ℕ) (st : Sel) (h : SelInv k score m st) :
    SelInv k score (m + 1) (selStep k st (score m, m)) := by
  obtain ⟨hsort, hmem, hnd, hlen, hisort, hperm, hdom⟩ := h
  have hmnot : m ∉ st.worst.map Prod.snd := by
    intro hin
    obtain ⟨x, hx, hx2⟩ := List.mem_map.mp hin
    have := (hmem x hx).1
    omega
  by_cases hfull : st.worst.length < k
  · rw [selStep, if_pos hfull]
    have hlm : st.worst.length = m := by omega
    have hpw : List.Perm (List.orderedInsert pairLe (score m, m) st.worst)
        ((score m, m) :: st.worst) :=
      List.perm_orderedInsert pairLe _ _
    have hpmap : List.Perm ((List.orderedInsert pairLe (score m, m) st.worst).map Prod.snd)
        (m :: st.worst.map Prod.snd) := by
      simpa using hpw.map Prod.snd
    refine ⟨?_, ?_, ?_, ?_, ?_, ?_, ?_⟩
    · exact List.Sorted.orderedInsert _ _ hsort
    · intro x hx
      rcases (List.mem_orderedInsert pairLe).mp hx with rfl | hx2
      · exact ⟨Nat.lt_succ_self m, rfl⟩
      · exact ⟨Nat.lt_succ_of_lt (hmem x hx2).1, (hmem x hx2).2⟩
    · rw [hpmap.nodup_iff]
      exact List.nodup_cons.mpr ⟨hmnot, hnd⟩
    · rw [List.orderedInsert_length pairLe st.worst _]
      omega
    · exact List.Sorted.orderedInsert _ _ hisort
    · exact (List.perm_orderedInsert _ _ _).trans ((hperm.cons m).trans hpmap.symm)
    · intro j hj hjnot x hx
      exfalso
      rcases Nat.lt_succ_iff_lt_or_eq.mp hj with hj2 | rfl
      · have hjin : j ∈ st.worst.map Prod.snd := by
          refine mem_of_nodup_length_lt hnd (by rw [List.length_map]; exact hlm) ?_ j hj2
          intro y hy
          obtain ⟨x2, hx2, hx3⟩ := List.mem_map.mp hy
          have := (hmem x2 hx2).1
          omega
        exact hjnot (hpmap.mem_iff.mpr (List.mem_cons_of_mem m hjin))
      · exact hjnot (hpmap.mem_iff.mpr (List.mem_cons_self _ _))
  · rw [selStep, if_neg hfull]
    cases hw : st.worst with
    | nil =>
      refine ⟨hsort, ?_, hnd, ?_, hisort, hperm, ?_⟩
      · intro x hx
        exact ⟨Nat.lt_succ_of_lt (hmem x hx).1, (hmem x hx).2⟩
      · rw [hw] at hlen hfull ⊢
        simp only [List.length_nil] at hlen hfull ⊢
        omega
      · intro j hj hjnot x hx
        rw [hw] at hx
        simp at hx
    | cons t rest =>
      have hsort2 := hsort
      rw [hw] at hsort2
      have hhead : ∀ y ∈ rest, pairLe t y := (List.sorted_cons.mp hsort2).1
      have hsortrest : rest.Sorted pairLe := (List.sorted_cons.mp hsort2).2
      have htmem : t ∈ st.worst := by rw [hw]; exact List.mem_cons_self _ _
      have htlt : t.2 < m := (hmem t htmem).1
      have htsc : t.1 = score t.2 := (hmem t htmem).2
      have hndold := hnd
      rw [hw, List.map_cons] at hndold
      have htnotin : t.2 ∉ rest.map Prod.snd := (List.nodup_cons.mp hndold).1
      have hndrest : (rest.map Prod.snd).Nodup := (List.nodup_cons.mp hndold).2
      have hmrest : m ∉ rest.map Prod.snd := by
        intro hin
        obtain ⟨x, hx, hx2⟩ := List.mem_map.mp hin
        have : x ∈ st.worst := by rw [hw]; exact List.mem_cons_of_mem t hx
        have := (hmem x this).1
        omega
      show SelInv k score (m + 1)
        (if t.1 < score m then
          (⟨List.orderedInsert pairLe (score m, m) rest,
            List.orderedInsert (· ≤ ·) m (st.indices.erase t.2)⟩ : Sel)
         else st)
      by_cases hlt : t.1 < score m
      · rw [if_pos hlt]
        have hpw : List.Perm (List.orderedInsert pairLe (score m, m) rest)
            ((score m, m) :: rest) :=
          List.perm_orderedInsert pairLe _ _
        have hpmap : List.Perm ((List.orderedInsert pairLe (score m, m) rest).map Prod.snd)
            (m :: rest.map Prod.snd) := by
          simpa using hpw.map Prod.snd
        refine ⟨?_, ?_, ?_, ?_, ?_, ?_, ?_⟩
        · exact List.Sorted.orderedInsert _ _ hsortrest
        · intro x hx
          rcases (List.mem_orderedInsert pairLe).mp hx with rfl | hx2
          · exact ⟨Nat.lt_succ_self m, rfl⟩
          · have : x ∈ st.worst := by rw [hw]; exact List.mem_cons_of_mem t hx2
            exact ⟨Nat.lt_succ_of_lt (hmem x this).1, (hmem x this).2⟩
        · rw [hpmap.nodup_iff]
          exact List.nodup_cons.mpr ⟨hmrest, hndrest⟩
        · rw [List.orderedInsert_length pairLe rest _]
          rw [hw] at hlen hfull
          simp only [List.length_cons] at hlen hfull
          omega
        · refine List.Sorted.orderedInsert _ _ ?_
          exact List.Pairwise.sublist (List.erase_sublist _ _) hisort
        · have heq : (st.worst.map Prod.snd).erase t.2 = rest.map Prod.snd := by
            rw [hw, List.map_cons, List.erase_cons_head]
          have h1 : List.Perm (List.orderedInsert (· ≤ ·) m (st.indices.erase t.2))
              (m :: (st.worst.map Prod.snd).erase t.2) :=
            (List.perm_orderedInsert _ _ _).trans ((hperm.erase t.2).cons m)
          rw [heq] at h1
          exact h1.trans hpmap.symm
        · intro j hj hjnot x hx
          have hjm : ¬(j = m ∨ j ∈ rest.map Prod.snd) := by
            intro hcon
            exact hjnot (hpmap.mem_iff.mpr (List.mem_cons.mpr hcon))
          push_neg at hjm
          by_cases hjt : j = t.2
          · subst hjt
            rcases (List.mem_orderedInsert pairLe).mp hx with rfl | hxr
            · rw [← htsc]
              exact le_of_lt hlt
            · rw [← htsc]
              exact pairLe_fst (hhead x hxr)
          · have hjold : j ∉ st.worst.map Prod.snd := by
              rw [hw, List.map_cons]
              intro hcon
              rcases List.mem_cons.mp hcon with h2 | h2
              · exact hjt h2
              · exact hjm.2 h2
            have hjm2 : j < m := by
              rcases Nat.lt_succ_iff_lt_or_eq.mp hj with h2 | h2
              · exact h2
              · exact absurd h2 hjm.1
            rcases (List.mem_orderedInsert pairLe).mp hx with rfl | hxr
            · have := hdom j hjm2 hjold t htmem
              exact le_of_lt (lt_of_le_of_lt this hlt)
            · exact hdom j hjm2 hjold x (by rw [hw]; exact List.mem_cons_of_mem t hxr)
      · rw [if_neg hlt]
        refine ⟨hsort, ?_, hnd, ?_, hisort, hperm, ?_⟩
        · intro x hx
          exact ⟨Nat.lt_succ_of_lt (hmem x hx).1, (hmem x hx).2⟩
        · rw [hw] at hlen hfull ⊢
          simp only [List.length_cons] at hlen hfull ⊢
          omega
        · intro j hj hjnot x hx
          rcases Nat.lt_succ_iff_lt_or_eq.mp hj with hj2 | rfl
          · exact hdom j hj2 hjnot x hx
          · have hxw := hx
            rw [hw] at hxw
            rcases List.mem_cons.mp hxw with rfl | hxr
            · exact not_lt.mp hlt
            · exact le_trans (not_lt.mp hlt) (pairLe_fst (hhead x hxr))

lemma pruneSelect_inv (k : ℕ) (score : ℕ → ℚ) : ∀ n, SelInv k score n (pruneSelect k score n) := by
  intro n
  induction n with
  | zero => exact selInv_init k score
  | succ n ih =>
    have hstep : pruneSelect k score (n + 1) = selStep k (pruneSelect k score n) (score n, n) := by
      rw [pruneSelect, pruneSelect, List.range_succ, List.foldl_append, List.foldl_cons,
        List.foldl_nil]
    rw [hstep]
    exact selInv_step k score n _ ih

lemma pruneSelect_spec (k : ℕ) (score : ℕ → ℚ) (n : ℕ) (hk : k ≤ n) :
    ((pruneSelect k score n).indices.reverse.length = k) ∧
    (pruneSelect k score n).indices.reverse.Pairwise (fun a b => b < a) ∧
    (∀ i ∈ (pruneSelect k score n).indices.reverse, i < n) ∧
    (∀ i ∈ (pruneSelect k score n).indices.reverse, ∀ j < n,
      j ∉ (pruneSelect k score n).indices.reverse → score j ≤ score i) := by
  obtain ⟨hsort, hmem, hnd, hlen, hisort, hperm, hdom⟩ := pruneSelect_inv k score n
  have hndidx : (pruneSelect k score n).indices.Nodup := hperm.nodup_iff.mpr hnd
  refine ⟨?_, ?_, ?_, ?_⟩
  · rw [List.length_reverse, hperm.length_eq, List.length_map, hlen]
    omega
  · rw [List.pairwise_reverse]
    have h1 : (pruneSelect k score n).indices.Pairwise (· ≤ ·) := hisort
    have h2 : (pruneSelect k score n).indices.Pairwise (· ≠ ·) := hndidx
    exact (h1.and h2).imp (fun h => lt_of_le_of_ne h.1 h.2)
  · intro i hi
    rw [List.mem_reverse] at hi
    obtain ⟨x, hx, hx2⟩ := List.mem_map.mp (hperm.mem_iff.mp hi)
    have := (hmem x hx).1
    omega
  · intro i hi j hj hjnot
    rw [List.mem_reverse] at hi
    obtain ⟨x, hx, hx2⟩ := List.mem_map.mp (hperm.mem_iff.mp hi)
    have hji : j ∉ (pruneSelect k score n).worst.map Prod.snd := by
      intro hcon
      exact hjnot (List.mem_reverse.mpr (hperm.mem_iff.mpr hcon))
    have hd := hdom j hj hji x hx
    rw [(hmem x hx).2, hx2] at hd
    exact hd

lemma checkPruneD_weightSum (s : DenseState) : (checkPruneD s).weightSum = s.weightSum := by
  unfold checkPruneD
  split
  · rfl
  · dsimp only
    split
    · rfl
    · split
      · rfl
      · rfl

lemma checkPruneD_fraction_eq (s : DenseState)
    (hfin : isFinishedD s = false)
    (hepoch : s.pruneSampleEpoch * s.cfg.pruneCheckEvery ≤ s.weightSum)
    (hty : s.cfg.pruningType ≠ PruneStrategy.hoeffdingPrune) :
    checkPruneD s =
      (if (⌊(numSplitsD s : ℚ) * s.cfg.pruneFraction⌋).toNat = 0 then
        { s with pruneSampleEpoch := s.pruneSampleEpoch + 1 }
      else
        removeSplitsD { s with pruneSampleEpoch := s.pruneSampleEpoch + 1 }
          (pruneSelect (⌊(numSplitsD s : ℚ) * s.cfg.pruneFraction⌋).toNat
            (fun i => scoreD { s with pruneSampleEpoch := s.pruneSampleEpoch + 1 } i)
            (numSplitsD s)).indices.reverse) := by
  have hgate : ¬(isFinishedD s = true ∨
      s.weightSum < s.pruneSampleEpoch * s.cfg.pruneCheckEvery) := by
    push_neg
    exact ⟨by simp [hfin], hepoch⟩
  unfold checkPruneD
  rw [if_neg hgate]
  dsimp only
  split
  · rename_i heq
    exact absurd heq hty
  · rfl

/-- Claim C1 (amended): for a classification accumulator with a fraction
pruning strategy (half, quarter, 10 percent), a prune check that fires
(accumulator not finished, prune epoch due) removes exactly
floor(fraction * liveCandidateCount) of the HIGHEST-scoring candidates by
Gini split score (the worst ones, since lower scores are better), and the
removal batch deletes the selected index set from the highest index down,
which leaves exactly the unselected candidates with their statistics
records, in order. -/
theorem C1_prune_fraction_removes_worst (s : DenseState)
    (hty : s.cfg.pruningType = PruneStrategy.half ∨ s.cfg.pruningType = PruneStrategy.quarter ∨
      s.cfg.pruningType = PruneStrategy.tenPercent)
    (hfrac : s.cfg.pruneFraction = pruneFractionOf s.cfg.pruningType)
    (hfin : isFinishedD s = false)
    (hepoch : s.pruneSampleEpoch * s.cfg.pruneCheckEvery ≤ s.weightSum) :
    ∃ R : List ℕ,
      R.length = (⌊(numSplitsD s : ℚ) * s.cfg.pruneFraction⌋).toNat ∧
      R.Pairwise (fun a b => b < a) ∧
      (∀ i ∈ R, i < numSplitsD s) ∧
      (∀ i ∈ R, ∀ j < numSplitsD s, j ∉ R → scoreD s j ≤ scoreD s i) ∧
      (checkPruneD s).splits = keepAux R 0 s.splits ∧
      (checkPruneD s).leftCounts = keepAux R 0 s.leftCounts ∧
      (checkPruneD s).weightSum = s.weightSum ∧
      (checkPruneD s).totals = s.totals := by
  have htyne : s.cfg.pruningType ≠ PruneStrategy.hoeffdingPrune := by
    rcases hty with h | h | h <;> rw [h] <;> intro hcon <;> exact PruneStrategy.noConfusion hcon
  have hfb : 0 ≤ s.cfg.pruneFraction ∧ s.cfg.pruneFraction ≤ 1 := by
    rcases hty with h | h | h <;> rw [hfrac, h] <;> norm_num [pruneFractionOf]
  have heq := checkPruneD_fraction_eq s hfin hepoch htyne
  have hkn : (⌊(numSplitsD s : ℚ) * s.cfg.pruneFraction⌋).toNat ≤ numSplitsD s := by
    rw [Int.toNat_le]
    calc ⌊(numSplitsD s : ℚ) * s.cfg.pruneFraction⌋ ≤ ⌊(numSplitsD s : ℚ)⌋ :=
        Int.floor_le_floor (mul_le_of_le_one_right (by positivity) hfb.2)
      _ = (numSplitsD s : ℤ) := Int.floor_natCast _
  by_cases hk0 : (⌊(numSplitsD s : ℚ) * s.cfg.pruneFraction⌋).toNat = 0
  · refine ⟨[], by rw [hk0]; rfl, List.Pairwise.nil, by simp, by simp, ?_, ?_, ?_, ?_⟩
    · rw [heq, if_pos hk0, keepAux_nil]
    · rw [heq, if_pos hk0, keepAux_nil]
    · exact checkPruneD_weightSum s
    · rw [heq, if_pos hk0]
  · obtain ⟨hlen, hdesc, hbound, hdom⟩ :=
      pruneSelect_spec (⌊(numSplitsD s : ℚ) * s.cfg.pruneFraction⌋).toNat
        (fun i => scoreD { s with pruneSampleEpoch := s.pruneSampleEpoch + 1 } i)
        (numSplitsD s) hkn
    refine ⟨(pruneSelect (⌊(numSplitsD s : ℚ) * s.cfg.pruneFraction⌋).toNat
        (fun i => scoreD { s with pruneSampleEpoch := s.pruneSampleEpoch + 1 } i)
        (numSplitsD s)).indices.reverse, hlen, hdesc, hbound, ?_, ?_, ?_, ?_, ?_⟩
    · intro i hi j hj hjnot
      exact hdom i hi j hj hjnot
    · rw [heq, if_neg hk0]
      exact removeIdxs_eq_keepAux _ hdesc _
    · rw [heq, if_neg hk0]
      exact removeIdxs_eq_keepAux _ hdesc _
    · exact checkPruneD_weightSum s
    · rw [heq, if_neg hk0]
      rfl

/-- Claim C1 (counterexample): in stC1 the prune check must remove
floor(1/2 * 2) = 1 candidate; candidate 0 scores 2 (the highest, worst
Gini) and candidate 1 scores 0 (the lowest, best); the check removes
candidate 0 and keeps candidate 1 (split id 20), so it removes the
highest-scoring candidate, not the lowest-scoring one as claimed. -/
theorem C1_counterexample :
    scoreD stC1 0 = 2 ∧ scoreD stC1 1 = 0 ∧
    (⌊(numSplitsD stC1 : ℚ) * stC1.cfg.pruneFraction⌋).toNat = 1 ∧
    (checkPruneD stC1).splits = [20] ∧ (checkPruneD stC1).leftCounts = [[2, 0]] := by
  refine ⟨?_, ?_, ?_, ?_, ?_⟩
  · norm_num [scoreD, giniScoreD, stC1, cfgC1, sumOver, leftCountD, rightCountD,
      WeightedSmoothedGini, List.range_succ]
  · norm_num [scoreD, giniScoreD, stC1, cfgC1, sumOver, leftCountD, rightCountD,
      WeightedSmoothedGini, List.range_succ]
  · norm_num [numSplitsD, stC1, cfgC1]
  · norm_num [checkPruneD, stC1, cfgC1, isFinishedD, numOutputsSeenD, numSplitsD,
      pruneSelect, selStep, List.range_succ, List.orderedInsert, pairLe,
      removeSplitsD, removeIdxs, scoreD, giniScoreD, sumOver, leftCountD, rightCountD,
      WeightedSmoothedGini]
  · norm_num [checkPruneD, stC1, cfgC1, isFinishedD, numOutputsSeenD, numSplitsD,
      pruneSelect, selStep, List.range_succ, List.orderedInsert, pairLe,
      removeSplitsD, removeIdxs, scoreD, giniScoreD, sumOver, leftCountD, rightCountD,
      WeightedSmoothedGini]

/-- Claim C1 (witness): the amended theorem instantiated at stC1. -/
theorem C1_witness :
    isFinishedD stC1 = false ∧
    stC1.pruneSampleEpoch * stC1.cfg.pruneCheckEvery ≤ stC1.weightSum ∧
    ∃ R : List ℕ,
      R.length = (⌊(numSplitsD stC1 : ℚ) * stC1.cfg.pruneFraction⌋).toNat ∧
      R.Pairwise (fun a b => b < a) ∧
      (∀ i ∈ R, i < numSplitsD stC1) ∧
      (∀ i ∈ R, ∀ j < numSplitsD stC1, j ∉ R → scoreD stC1 j ≤ scoreD stC1 i) ∧
      (checkPruneD stC1).splits = keepAux R 0 stC1.splits ∧
      (checkPruneD stC1).leftCounts = keepAux R 0 stC1.leftCounts ∧
      (checkPruneD stC1).weightSum = stC1.weightSum ∧
      (checkPruneD stC1).totals = stC1.totals := by
  have h1 : isFinishedD stC1 = false := by
    norm_num [isFinishedD, stC1, cfgC1, numOutputsSeenD]
  have h2 : stC1.pruneSampleEpoch * stC1.cfg.pruneCheckEvery ≤ stC1.weightSum := by
    norm_num [stC1, cfgC1]
  exact ⟨h1, h2, C1_prune_fraction_removes_worst stC1 (Or.inl rfl) rfl h1 h2⟩

/-- Claim C2: for all three accumulator variants, BestSplit returns a
candidate with both side weights strictly positive and minimal score among
such candidates, and returns failure exactly when no candidate has both
side weights strictly positive. -/
theorem C2_bestSplit_selection :
    (∀ s : DenseState,
      (bestSplitD s = none ↔ ∀ i < numSplitsD s, ¬(0 < leftSumD s i ∧ 0 < rightSumD s i)) ∧
      (∀ o, bestSplitD s = some o → ∃ i, i < numSplitsD s ∧ o = denseOutAt s i ∧
        0 < leftSumD s i ∧ 0 < rightSumD s i ∧
        ∀ j < numSplitsD s, 0 < leftSumD s j → 0 < rightSumD s j → scoreD s i ≤ scoreD s j)) ∧
    (∀ s : SparseState,
      (bestSplitS s = none ↔ ∀ i < numSplitsS s, ¬(0 < leftSumS s i ∧ 0 < rightSumS s i)) ∧
      (∀ o, bestSplitS s = some o → ∃ i, i < numSplitsS s ∧ o = sparseOutAt s i ∧
        0 < leftSumS s i ∧ 0 < rightSumS s i ∧
        ∀ j < numSplitsS s, 0 < leftSumS s j → 0 < rightSumS s j → scoreS s i ≤ scoreS s j)) ∧
    (∀ s : RegState,
      (bestSplitR s = none ↔ ∀ i < numSplitsR s,
        ¬(0 < leftCountR s i ∧ 0 < s.weightSum - leftCountR s i)) ∧
      (∀ o, bestSplitR s = some o → ∃ i, i < numSplitsR s ∧ o = regOutAt s i ∧
        0 < leftCountR s i ∧ 0 < s.weightSum - leftCountR s i ∧
        ∀ j < numSplitsR s, 0 < leftCountR s j → 0 < s.weightSum - leftCountR s j →
          splitVarianceR s i ≤ splitVarianceR s j)) := by
  refine ⟨?_, ?_, ?_⟩
  · intro s
    constructor
    · unfold bestSplitD
      cases hs : selectBest (fun i => giniScoreD s i) (numSplitsD s) with
      | none =>
        simp only [true_iff]
        exact (selectBest_none_iff _ _).mp hs
      | some a =>
        obtain ⟨i, t⟩ := a
        obtain ⟨hin, ht, hl, hr, _⟩ := selectBest_some_spec _ _ i t hs
        subst ht
        constructor
        · intro h
          exact absurd h (by simp)
        · intro hall
          exact absurd ⟨hl, hr⟩ (hall i hin)
    · intro o ho
      unfold bestSplitD at ho
      cases hs : selectBest (fun i => giniScoreD s i) (numSplitsD s) with
      | none => rw [hs] at ho; exact Option.noConfusion ho
      | some a =>
        obtain ⟨i, t⟩ := a
        rw [hs] at ho
        obtain ⟨hin, ht, hl, hr, hmin⟩ := selectBest_some_spec _ _ i t hs
        subst ht
        refine ⟨i, hin, (Option.some.inj ho).symm, hl, hr, ?_⟩
        intro j hj hjl hjr
        exact hmin j hj hjl hjr
  · intro s
    constructor
    · unfold bestSplitS
      cases hs : selectBest (fun i => giniScoreS s i) (numSplitsS s) with
      | none =>
        simp only [true_iff]
        exact (selectBest_none_iff _ _).mp hs
      | some a =>
        obtain ⟨i, t⟩ := a
        obtain ⟨hin, ht, hl, hr, _⟩ := selectBest_some_spec _ _ i t hs
        subst ht
        constructor
        · intro h
          exact absurd h (by simp)
        · intro hall
          exact absurd ⟨hl, hr⟩ (hall i hin)
    · intro o ho
      unfold bestSplitS at ho
      cases hs : selectBest (fun i => giniScoreS s i) (numSplitsS s) with
      | none => rw [hs] at ho; exact Option.noConfusion ho
      | some a =>
        obtain ⟨i, t⟩ := a
        rw [hs] at ho
        obtain ⟨hin, ht, hl, hr, hmin⟩ := selectBest_some_spec _ _ i t hs
        subst ht
        refine ⟨i, hin, (Option.some.inj ho).symm, hl, hr, ?_⟩
        intro j hj hjl hjr
        exact hmin j hj hjl hjr
  · intro s
    constructor
    · unfold bestSplitR
      cases hs : selectBest
          (fun i => (splitVarianceR s i, leftCountR s i, s.weightSum - leftCountR s i))
          (numSplitsR s) with
      | none =>
        simp only [true_iff]
        exact (selectBest_none_iff _ _).mp hs
      | some a =>
        obtain ⟨i, t⟩ := a
        obtain ⟨hin, ht, hl, hr, _⟩ := selectBest_some_spec _ _ i t hs
        subst ht
        constructor
        · intro h
          exact absurd h (by simp)
        · intro hall
          exact absurd ⟨hl, hr⟩ (hall i hin)
    · intro o ho
      unfold bestSplitR at ho
      cases hs : selectBest
          (fun i => (splitVarianceR s i, leftCountR s i, s.weightSum - leftCountR s i))
          (numSplitsR s) with
      | none => rw [hs] at ho; exact Option.noConfusion ho
      | some a =>
        obtain ⟨i, t⟩ := a
        rw [hs] at ho
        obtain ⟨hin, ht, hl, hr, hmin⟩ := selectBest_some_spec _ _ i t hs
        subst ht
        refine ⟨i, hin, (Option.some.inj ho).symm, hl, hr, ?_⟩
        intro j hj hjl hjr
        exact hmin j hj hjl hjr

/-- Claim C2 (witness): a degenerate accumulator where the only candidate
routes all mass to the left comes back with no winner. -/
theorem C2_witness : bestSplitD stDegenC2 = none := by
  refine ((C2_bestSplit_selection.1 stDegenC2).1).mpr ?_
  intro i hi
  have hi0 : i = 0 := by
    simp [numSplitsD, stDegenC2] at hi
    omega
  subst hi0
  norm_num [leftSumD, rightSumD, giniScoreD, stDegenC2, cfgC1, sumOver, leftCountD,
    rightCountD, List.range_succ]


/-- Claim C5: under the concentration-bound early-finish strategy, the
check declares the accumulator finished exactly when the difference
between the second-lowest and the lowest candidate score exceeds
range * sqrt(ln(1/(1-dominate_fraction)) / (2*S)) with
range = 0.25 * numClasses * S. -/
theorem C5_hoeffding_finish (s : DenseState) (h2 : 2 ≤ numSplitsD s) :
    ((checkFinishEarlyHoeffdingD s).finishEarly = true ↔
      ∃ b s2 : ℚ,
        (b ∈ scoresListD s ∧ ∀ x ∈ scoresListD s, b ≤ x) ∧
        (s2 ∈ (scoresListD s).erase b ∧ ∀ x ∈ (scoresListD s).erase b, s2 ≤ x) ∧
        ((s2 : ℝ) - (b : ℝ) >
          (1 / 4 : ℝ) * (s.cfg.numOutputs : ℝ) * (s.weightSum : ℝ) *
            Real.sqrt (Real.log (1 / (1 - (s.cfg.dominateFraction : ℝ))) /
              (2 * (s.weightSum : ℝ))))) := by
  have hlen : (scoresListD s).length = numSplitsD s := by
    rw [scoresListD, List.length_map, List.length_range]
  have hne : scoresListD s ≠ [] := by
    intro hcon
    rw [hcon] at hlen
    simp at hlen
    omega
  obtain ⟨b0, hb0⟩ : ∃ b0, minQ (scoresListD s) = some b0 := by
    cases hm : minQ (scoresListD s) with
    | none => exact absurd ((minQ_eq_none_iff _).mp hm) hne
    | some b => exact ⟨b, rfl⟩
  have hbmem := minQ_mem hb0
  obtain ⟨s20, hs20⟩ : ∃ y, minQ ((scoresListD s).erase b0) = some y := by
    cases hm : minQ ((scoresListD s).erase b0) with
    | none =>
      exfalso
      have hcon := (minQ_eq_none_iff _).mp hm
      have hlen2 := List.length_erase_of_mem hbmem
      rw [hcon] at hlen2
      simp at hlen2
      omega
    | some y => exact ⟨y, rfl⟩
  have htwo : twoBest (scoresListD s) = some (b0, s20) := by
    simp only [twoBest, hb0, hs20]
  have hres : checkFinishEarlyHoeffdingD s =
      { s with finishEarly :=
          decide (((s20 : ℚ) : ℝ) - ((b0 : ℚ) : ℝ) > hoeffdingBoundD s) } := by
    unfold checkFinishEarlyHoeffdingD
    rw [htwo]
  rw [hres]
  constructor
  · intro h
    refine ⟨b0, s20, ⟨hbmem, fun x hx => minQ_le hb0 x hx⟩,
      ⟨minQ_mem hs20, fun x hx => minQ_le hs20 x hx⟩, ?_⟩
    exact of_decide_eq_true h
  · rintro ⟨b, s2, ⟨hbm, hble⟩, ⟨hsm, hsle⟩, hgt⟩
    have hbb : b = b0 := le_antisymm (hble b0 hbmem) (minQ_le hb0 b hbm)
    subst hbb
    have hss : s2 = s20 := le_antisymm (hsle s20 (minQ_mem hs20)) (minQ_le hs20 s2 hsm)
    subst hss
    exact decide_eq_true hgt

/-- Claim C5 (witness): the theorem instantiated at a concrete
two-candidate accumulator. -/
theorem C5_witness :
    2 ≤ numSplitsD stC5 ∧
    ((checkFinishEarlyHoeffdingD stC5).finishEarly = true ↔
      ∃ b s2 : ℚ,
        (b ∈ scoresListD stC5 ∧ ∀ x ∈ scoresListD stC5, b ≤ x) ∧
        (s2 ∈ (scoresListD stC5).erase b ∧ ∀ x ∈ (scoresListD stC5).erase b, s2 ≤ x) ∧
        ((s2 : ℝ) - (b : ℝ) >
          (1 / 4 : ℝ) * (stC5.cfg.numOutputs : ℝ) * (stC5.weightSum : ℝ) *
            Real.sqrt (Real.log (1 / (1 - (stC5.cfg.dominateFraction : ℝ))) /
              (2 * (stC5.weightSum : ℝ))))) :=
  ⟨by norm_num [numSplitsD, stC5], C5_hoeffding_finish stC5 (by norm_num [numSplitsD, stC5])⟩

lemma mapFind_of_mem : ∀ {m : List (ℕ × ℚ)}, keysAscending m →
    ∀ {e : ℕ × ℚ}, e ∈ m → mapFind m e.1 = some e.2 := by
  intro m
  induction m with
  | nil => intro _ e he; simp at he
  | cons p t ih =>
    intro hasc e he
    rcases List.mem_cons.mp he with rfl | het
    · rw [mapFind, if_pos rfl]
    · have hlt : p.1 < e.1 := (List.pairwise_cons.mp hasc).1 e het
      rw [mapFind, if_neg (by omega)]
      exact ih (List.pairwise_cons.mp hasc).2 het

lemma sparse_right_fold (lm : List (ℕ × ℚ)) :
    ∀ (l : List (ℕ × ℚ)) (acc : List (ℕ × ℚ) × List (ℕ × ℚ)) (x : ℕ × ℚ),
      x ∈ (l.foldl (sparseOutStep lm) acc).2 →
      x ∈ acc.2 ∨ ∃ e ∈ l,
        (mapFind lm e.1 = none ∧ x = (e.1, e.2)) ∨
        (∃ lv, mapFind lm e.1 = some lv ∧ 0 < e.2 - lv ∧ x = (e.1, e.2 - lv)) := by
  intro l
  induction l with
  | nil => intro acc x hx; exact Or.inl hx
  | cons e t ih =>
    intro acc x hx
    rw [List.foldl_cons] at hx
    rcases ih (sparseOutStep lm acc e) x hx with h | ⟨e2, he2, hcase⟩
    · cases hf : mapFind lm e.1 with
      | none =>
        simp only [sparseOutStep, hf] at h
        rcases List.mem_append.mp h with h2 | h2
        · exact Or.inl h2
        · have : x = (e.1, e.2) := by simpa using h2
          exact Or.inr ⟨e, List.mem_cons_self _ _, Or.inl ⟨hf, this⟩⟩
      | some lv =>
        simp only [sparseOutStep, hf] at h
        by_cases hp : 0 < e.2 - lv
        · rw [if_pos hp] at h
          rcases List.mem_append.mp h with h2 | h2
          · exact Or.inl h2
          · have : x = (e.1, e.2 - lv) := by simpa using h2
            exact Or.inr ⟨e, List.mem_cons_self _ _, Or.inr ⟨lv, hf, hp, this⟩⟩
        · rw [if_neg hp] at h
          exact Or.inl h
    · exact Or.inr ⟨e2, List.mem_cons_of_mem e he2, hcase⟩

/-- Claim C6 (amended): on a successful sparse BestSplit, provided every
leaf-total entry is strictly positive (and the totals map is a well-formed
std::map), every class key emitted in the right-side block has a strictly
positive right residual.  The positivity proviso is necessary: a key
absent from the winning candidate left map is emitted without any
positivity check, carrying its raw leaf total (see the counterexample). -/
theorem C6_sparse_right_residual (s : SparseState)
    (hasc : keysAscending s.totals) (hpos : ∀ e ∈ s.totals, 0 < e.2) :
    ∀ o, bestSplitS s = some o → ∃ i, i < numSplitsS s ∧ o = sparseOutAt s i ∧
      ∀ x ∈ o.rightCounts, 0 < rightResidualS s i x.1 := by
  intro o ho
  unfold bestSplitS at ho
  cases hs : selectBest (fun i => giniScoreS s i) (numSplitsS s) with
  | none => rw [hs] at ho; exact Option.noConfusion ho
  | some a =>
    obtain ⟨i, t⟩ := a
    rw [hs] at ho
    obtain ⟨hin, _, _, _, _⟩ := selectBest_some_spec _ _ i t hs
    have hoe : o = sparseOutAt s i := (Option.some.inj ho).symm
    subst hoe
    refine ⟨i, hin, rfl, ?_⟩
    intro x hx
    have hx2 : x ∈ (s.totals.foldl (sparseOutStep (leftMapS s i)) ([], [])).2 := hx
    rcases sparse_right_fold (leftMapS s i) s.totals ([], []) x hx2 with h | ⟨e, he, hcase⟩
    · simp at h
    · rcases hcase with ⟨hf, rfl⟩ | ⟨lv, hf, hp, rfl⟩
      · unfold rightResidualS
        rw [mapFind_of_mem hasc he, hf]
        simpa using hpos e he
      · unfold rightResidualS
        rw [mapFind_of_mem hasc he, hf]
        simpa using hp

/-- Claim C6 (counterexample): stC6 — a state produced by ExtractFromProto
from the persisted record slotC6 — has leaf total 0 for class 1, which is
absent from the winning candidate left map; the successful BestSplit emits
key 1 into the right-side block with value 0 although its right residual
(0 - 0 = 0) is not strictly positive. -/
theorem C6_counterexample :
    extractS freshC6 slotC6 = stC6 ∧
    bestSplitS stC6 = some (sparseOutAt stC6 0) ∧
    (sparseOutAt stC6 0).rightCounts = [(0, 3), (1, 0)] ∧
    rightResidualS stC6 0 1 = 0 := by
  refine ⟨?_, ?_, ?_, ?_⟩
  · norm_num [extractS, freshC6, slotC6, stC6, resetS, mapOfEntries, mapAssign]
  · norm_num [bestSplitS, stC6, cfgC6, numSplitsS, selectBest, List.range_succ, selBestStep,
      giniScoreS, leftMapS, mapFind, WeightedSmoothedGini, beats]
  · norm_num [sparseOutAt, stC6, sparseOutStep, leftMapS, mapFind, leftSumS, rightSumS]
  · norm_num [rightResidualS, stC6, leftMapS, mapFind]

/-- Claim C6 (witness): the amended theorem applied to a sparse state with
strictly positive leaf totals and its winning candidate. -/
theorem C6_witness :
    ∃ i, i < numSplitsS stC6w ∧ sparseOutAt stC6w 0 = sparseOutAt stC6w i ∧
      ∀ x ∈ (sparseOutAt stC6w 0).rightCounts, 0 < rightResidualS stC6w i x.1 := by
  have hsome : bestSplitS stC6w = some (sparseOutAt stC6w 0) := by
    norm_num [bestSplitS, stC6w, cfgC6, numSplitsS, selectBest, List.range_succ, selBestStep,
      giniScoreS, leftMapS, mapFind, WeightedSmoothedGini, beats]
  exact C6_sparse_right_residual stC6w (by unfold keysAscending; decide) (by decide)
    (sparseOutAt stC6w 0) hsome

/-- Claim C7: PackToProto followed by ExtractFromProto into a fresh
accumulator of the same configuration reproduces the total weight, the
totals, the candidate split sequence in order, and the per-candidate left
statistics, for all three variants. -/
theorem C7_round_trip :
    (∀ s fresh : DenseState, WFdense s → fresh.cfg = s.cfg →
      obsD (extractD fresh (packD s)) = obsD s) ∧
    (∀ s fresh : SparseState, WFsparse s → fresh.cfg = s.cfg →
      obsS (extractS fresh (packS s)) = obsS s) ∧
    (∀ s fresh : RegState, WFreg s → fresh.cfg = s.cfg →
      obsR (extractR fresh (packR s)) = obsR s) := by
  refine ⟨?_, ?_, ?_⟩
  · intro s fresh hwf hcfg
    obtain ⟨h1, h2, h3⟩ := hwf
    have hT : (List.range s.cfg.numOutputs).map (fun i => s.totals.getD i 0) = s.totals :=
      recoverListLen 0 s.totals _ h1
    have hS : (List.range (numSplitsD s)).map (fun i => s.splits.getD i 0) = s.splits :=
      recoverListLen 0 s.splits _ rfl
    have hL : (List.range (numSplitsD s)).map (fun k => s.leftCounts.getD k []) =
        s.leftCounts := recoverListLen [] s.leftCounts _ h2
    simp only [obsD, extractD, packD, resetD, Prod.mk.injEq]
    refine ⟨trivial, ?_, ?_, ?_⟩
    · rw [hcfg, hT]
      exact hT
    · rw [List.map_map]
      exact hS
    · rw [List.map_map, hcfg]
      have hstep : ∀ k ∈ List.range (numSplitsD s),
          ((fun c : ℕ × List ℚ =>
              (List.range s.cfg.numOutputs).map (fun i => c.2.getD i 0)) ∘
            (fun k => (s.splits.getD k 0,
              (List.range s.cfg.numOutputs).map (fun i => leftCountD s k i)))) k =
          s.leftCounts.getD k [] := by
        intro k hk
        have hk2 : k < s.leftCounts.length := by
          rw [h2]
          exact List.mem_range.mp hk
        have hrow : s.leftCounts.getD k [] ∈ s.leftCounts := by
          rw [List.getD_eq_getElem s.leftCounts [] hk2]
          exact List.getElem_mem hk2
        have hlenrow : (s.leftCounts.getD k []).length = s.cfg.numOutputs := h3 _ hrow
        have hinner : (List.range s.cfg.numOutputs).map (fun i => leftCountD s k i) =
            s.leftCounts.getD k [] :=
          recoverListLen 0 (s.leftCounts.getD k []) _ hlenrow
        show (List.range s.cfg.numOutputs).map
            (fun i => ((List.range s.cfg.numOutputs).map
              (fun i2 => leftCountD s k i2)).getD i 0) = s.leftCounts.getD k []
        rw [hinner]
        exact recoverListLen 0 (s.leftCounts.getD k []) _ hlenrow
      rw [List.map_congr_left hstep]
      exact hL
  · intro s fresh hwf hcfg
    obtain ⟨h1, h2, h3⟩ := hwf
    have hS : (List.range (numSplitsS s)).map (fun i => s.splits.getD i 0) = s.splits :=
      recoverListLen 0 s.splits _ rfl
    have hL : (List.range (numSplitsS s)).map (fun k => s.leftCounts.getD k []) =
        s.leftCounts := recoverListLen [] s.leftCounts _ h2
    simp only [obsS, extractS, packS, resetS, Prod.mk.injEq]
    refine ⟨trivial, ?_, ?_, ?_⟩
    · exact mapOfEntries_id s.totals h1
    · rw [List.map_map]
      exact hS
    · rw [List.map_map]
      have hstep : ∀ k ∈ List.range (numSplitsS s),
          ((fun c : ℕ × List (ℕ × ℚ) => mapOfEntries c.2) ∘
            (fun k => (s.splits.getD k 0, leftMapS s k))) k =
          s.leftCounts.getD k [] := by
        intro k hk
        have hk2 : k < s.leftCounts.length := by
          rw [h2]
          exact List.mem_range.mp hk
        have hrow : s.leftCounts.getD k [] ∈ s.leftCounts := by
          rw [List.getD_eq_getElem s.leftCounts [] hk2]
          exact List.getElem_mem hk2
        show mapOfEntries (leftMapS s k) = s.leftCounts.getD k []
        exact mapOfEntries_id _ (h3 _ hrow)
      rw [List.map_congr_left hstep]
      exact hL
  · intro s fresh hwf hcfg
    obtain ⟨h1, h2, h3, h4, h5, h6, h7⟩ := hwf
    have hTS : (List.range s.cfg.numOutputs).map (fun i => s.totalSum.getD i 0) = s.totalSum :=
      recoverListLen 0 s.totalSum _ h1
    have hTQ : (List.range s.cfg.numOutputs).map (fun i => s.totalSumSquares.getD i 0) =
        s.totalSumSquares := recoverListLen 0 s.totalSumSquares _ h2
    have hS : (List.range (numSplitsR s)).map (fun i => s.splits.getD i 0) = s.splits :=
      recoverListLen 0 s.splits _ rfl
    have hLS : (List.range (numSplitsR s)).map (fun k => s.leftSums.getD k []) = s.leftSums :=
      recoverListLen [] s.leftSums _ h3
    have hLQ : (List.range (numSplitsR s)).map (fun k => s.leftSquares.getD k []) =
        s.leftSquares := recoverListLen [] s.leftSquares _ h4
    have hLC : (List.range (numSplitsR s)).map (fun k => s.leftCounts.getD k 0) = s.leftCounts :=
      recoverListLen 0 s.leftCounts _ h5
    simp only [obsR, extractR, packR, resetR, Prod.mk.injEq]
    have hlen1 : s.totalSum.length = s.cfg.numOutputs := h1
    refine ⟨trivial, ?_, ?_, ?_, ?_, ?_, ?_⟩
    · rw [hcfg, hTS]
    · rw [hcfg, hlen1, hTQ]
      exact hTQ
    · rw [List.map_map]
      exact hS
    · rw [List.map_map, hcfg]
      have hstep : ∀ k ∈ List.range (numSplitsR s),
          ((fun c : ℕ × List ℚ × List ℚ × ℚ =>
              (List.range s.cfg.numOutputs).map (fun i => c.2.1.getD i 0)) ∘
            (fun k => (s.splits.getD k 0,
              (List.range s.cfg.numOutputs).map (fun i => leftSumR s k i),
              (List.range s.cfg.numOutputs).map (fun i => leftSquareR s k i),
              leftCountR s k))) k = s.leftSums.getD k [] := by
        intro k hk
        have hk2 : k < s.leftSums.length := by
          rw [h3]
          exact List.mem_range.mp hk
        have hrow : s.leftSums.getD k [] ∈ s.leftSums := by
          rw [List.getD_eq_getElem s.leftSums [] hk2]
          exact List.getElem_mem hk2
        have hlenrow : (s.leftSums.getD k []).length = s.cfg.numOutputs := h6 _ hrow
        have hinner : (List.range s.cfg.numOutputs).map (fun i => leftSumR s k i) =
            s.leftSums.getD k [] := recoverListLen 0 (s.leftSums.getD k []) _ hlenrow
        show (List.range s.cfg.numOutputs).map
            (fun i => ((List.range s.cfg.numOutputs).map
              (fun i2 => leftSumR s k i2)).getD i 0) = s.leftSums.getD k []
        rw [hinner]
        exact recoverListLen 0 (s.leftSums.getD k []) _ hlenrow
      rw [List.map_congr_left hstep]
      exact hLS
    · rw [List.map_map, hcfg]
      have hstep : ∀ k ∈ List.range (numSplitsR s),
          ((fun c : ℕ × List ℚ × List ℚ × ℚ =>
              (List.range s.cfg.numOutputs).map (fun i => c.2.2.1.getD i 0)) ∘
            (fun k => (s.splits.getD k 0,
              (List.range s.cfg.numOutputs).map (fun i => leftSumR s k i),
              (List.range s.cfg.numOutputs).map (fun i => leftSquareR s k i),
              leftCountR s k))) k = s.leftSquares.getD k [] := by
        intro k hk
        have hk2 : k < s.leftSquares.length := by
          rw [h4]
          exact List.mem_range.mp hk
        have hrow : s.leftSquares.getD k [] ∈ s.leftSquares := by
          rw [List.getD_eq_getElem s.leftSquares [] hk2]
          exact List.getElem_mem hk2
        have hlenrow : (s.leftSquares.getD k []).length = s.cfg.numOutputs := h7 _ hrow
        have hinner : (List.range s.cfg.numOutputs).map (fun i => leftSquareR s k i) =
            s.leftSquares.getD k [] := recoverListLen 0 (s.leftSquares.getD k []) _ hlenrow
        show (List.range s.cfg.numOutputs).map
            (fun i => ((List.range s.cfg.numOutputs).map
              (fun i2 => leftSquareR s k i2)).getD i 0) = s.leftSquares.getD k []
        rw [hinner]
        exact recoverListLen 0 (s.leftSquares.getD k []) _ hlenrow
      rw [List.map_congr_left hstep]
      exact hLQ
    · rw [List.map_map]
      exact hLC

/-- Claim C7 (witness): the dense round trip at a concrete accumulator. -/
theorem C7_witness :
    WFdense stC7d ∧ freshC7d.cfg = stC7d.cfg ∧
    obsD (extractD freshC7d (packD stC7d)) = obsD stC7d := by
  have h1 : WFdense stC7d := by
    refine ⟨rfl, rfl, ?_⟩
    intro row hrow
    fin_cases hrow <;> rfl
  have h2 : freshC7d.cfg = stC7d.cfg := rfl
  exact ⟨h1, h2, C7_round_trip.1 stC7d freshC7d h1 h2⟩

/-- Claim C8: SplitVariance is the sum over output dimensions of (left
mean-of-squares - left mean squared) + (right mean-of-squares - right mean
squared), with right sums total - left and right count total weight -
left count; and in the concrete scenario of values 1.0 (LEFT), 3.0 (LEFT),
5.0 (RIGHT) with one output and one candidate, the accumulated statistics
are left_sum 4, left_square 10, left_count 2, total_sum 9, total_square 35,
weight_sum 3 and SplitVariance equals 1. -/
theorem C8_split_variance :
    (∀ (s : RegState) (i : ℕ), 0 < leftCountR s i → 0 < s.weightSum - leftCountR s i →
      splitVarianceR s i = specSplitVariance s i) ∧
    (stC8.leftSums = [[4]] ∧ stC8.leftSquares = [[10]] ∧ stC8.leftCounts = [2] ∧
      stC8.totalSum = [9] ∧ stC8.totalSumSquares = [35] ∧ stC8.weightSum = 3 ∧
      splitVarianceR stC8 0 = 1) := by
  constructor
  · intro s i _ _
    unfold splitVarianceR specSplitVariance sumOver
    refine congrArg List.sum (List.map_congr_left ?_)
    intro j _
    dsimp only
    ring
  · refine ⟨?_, ?_, ?_, ?_, ?_, ?_, ?_⟩ <;>
      norm_num [stC8, stC8a, addExampleR, addDims, List.range_succ, addAt, List.enum,
        List.enumFrom, splitVarianceR, sumOver, leftSumR, leftSquareR, leftCountR]

/-- Claim C8 (witness): the variance formula applied at the scenario state,
whose left and right counts are strictly positive. -/
theorem C8_witness :
    0 < leftCountR stC8 0 ∧ 0 < stC8.weightSum - leftCountR stC8 0 ∧
    splitVarianceR stC8 0 = specSplitVariance stC8 0 := by
  have hl : 0 < leftCountR stC8 0 := by
    norm_num [stC8, stC8a, addExampleR, addDims, List.range_succ, addAt, List.enum,
      List.enumFrom, leftCountR]
  have hr : 0 < stC8.weightSum - leftCountR stC8 0 := by
    norm_num [stC8, stC8a, addExampleR, addDims, List.range_succ, addAt, List.enum,
      List.enumFrom, leftCountR]
  exact ⟨hl, hr, C8_split_variance.1 stC8 0 hl hr⟩

lemma checkFinishEarlyHoeffdingD_weightSum (s : DenseState) :
    (checkFinishEarlyHoeffdingD s).weightSum = s.weightSum := by
  unfold checkFinishEarlyHoeffdingD
  split
  · rfl
  · rfl

lemma checkFinishEarlyD_weightSum (d : Bool) (s : DenseState) :
    (checkFinishEarlyD d s).weightSum = s.weightSum := by
  unfold checkFinishEarlyD
  split
  · rfl
  · dsimp only
    split
    · exact checkFinishEarlyHoeffdingD_weightSum _
    · rfl
    · rfl

lemma addExampleD_weightSum (dec : ℕ → Bool) (label : ℕ) (w : ℚ) (draw : Bool)
    (s : DenseState) : (addExampleD dec label w draw s).weightSum = s.weightSum + w := by
  unfold addExampleD
  rw [checkPruneD_weightSum, checkFinishEarlyD_weightSum]

lemma checkFinishEarlyHoeffdingS_weightSum (s : SparseState) :
    (checkFinishEarlyHoeffdingS s).weightSum = s.weightSum := by
  unfold checkFinishEarlyHoeffdingS
  split
  · rfl
  · rfl

lemma checkFinishEarlyS_weightSum (d : Bool) (s : SparseState) :
    (checkFinishEarlyS d s).weightSum = s.weightSum := by
  unfold checkFinishEarlyS
  split
  · rfl
  · dsimp only
    split
    · exact checkFinishEarlyHoeffdingS_weightSum _
    · rfl
    · rfl

lemma checkPruneS_weightSum (s : SparseState) : (checkPruneS s).weightSum = s.weightSum := by
  unfold checkPruneS
  split
  · rfl
  · dsimp only
    split
    · rfl
    · split
      · rfl
      · rfl

lemma addExampleS_weightSum (dec : ℕ → Bool) (label : ℕ) (w : ℚ) (draw : Bool)
    (s : SparseState) : (addExampleS dec label w draw s).weightSum = s.weightSum + w := by
  unfold addExampleS
  rw [checkPruneS_weightSum, checkFinishEarlyS_weightSum]

/-- Claim C9: each classification AddExample grows the total weight by
exactly the example weight (for the dense and the sparse variant,
including the finish and prune checks it triggers), each regression
AddExample grows it by exactly 1, and across any sequence of AddExample
calls the total weight is non-decreasing (given nonnegative example
weights for classification; unconditionally for regression). -/
theorem C9_weight_monotone :
    (∀ (dec : ℕ → Bool) (label : ℕ) (w : ℚ) (draw : Bool) (s : DenseState),
      (addExampleD dec label w draw s).weightSum = s.weightSum + w) ∧
    (∀ (dec : ℕ → Bool) (label : ℕ) (w : ℚ) (draw : Bool) (s : SparseState),
      (addExampleS dec label w draw s).weightSum = s.weightSum + w) ∧
    (∀ (dec : ℕ → Bool) (out : ℕ → ℚ) (s : RegState),
      (addExampleR dec out s).weightSum = s.weightSum + 1) ∧
    (∀ (s : DenseState) (exs : List DenseEx), (∀ e ∈ exs, 0 ≤ e.w) →
      s.weightSum ≤ (addExampleListD exs s).weightSum) ∧
    (∀ (s : RegState) (exs : List RegEx),
      s.weightSum ≤ (addExampleListR exs s).weightSum) := by
  refine ⟨addExampleD_weightSum, addExampleS_weightSum, ?_, ?_, ?_⟩
  · intro dec out s
    rfl
  · intro s exs h
    induction exs generalizing s with
    | nil => exact le_refl _
    | cons e t ih =>
      show s.weightSum ≤ (addExampleListD t (addExampleD e.dec e.label e.w e.draw s)).weightSum
      calc s.weightSum ≤ s.weightSum + e.w :=
            le_add_of_nonneg_right (h e (List.mem_cons_self e t))
        _ = (addExampleD e.dec e.label e.w e.draw s).weightSum :=
            (addExampleD_weightSum e.dec e.label e.w e.draw s).symm
        _ ≤ _ := ih _ (fun e2 he2 => h e2 (List.mem_cons_of_mem e he2))
  · intro s exs
    induction exs generalizing s with
    | nil => exact le_refl _
    | cons e t ih =>
      show s.weightSum ≤ (addExampleListR t (addExampleR e.dec e.out s)).weightSum
      calc s.weightSum ≤ s.weightSum + 1 := by linarith
        _ = (addExampleR e.dec e.out s).weightSum := rfl
        _ ≤ _ := ih _

/-- Claim C9 (witness): the monotonicity conjunct at a concrete
accumulator and a one-example sequence of nonnegative weight. -/
theorem C9_witness :
    (∀ e ∈ [exC9], 0 ≤ e.w) ∧
    stC9.weightSum ≤ (addExampleListD [exC9] stC9).weightSum := by
  have h : ∀ e ∈ [exC9], 0 ≤ e.w := by
    intro e he
    rw [List.mem_singleton] at he
    subst he
    norm_num [exC9]
  exact ⟨h, C9_weight_monotone.2.2.2.1 stC9 [exC9] h⟩

end TensorForest
